import Mathlib

/-!
Verification of the goiter iterator package against its specification.

The Go source (package `iter`) is shallowly embedded:

* `Pair`       — the two-slot value produced by `zip` (fields `X`, `Y`, as used
                 by `&Pair{v1, v2}` and the `Pair.String` method).
* `Seq α`      — the list-backed reference container.  `IterStrings` is exactly
                 `Seq String` (fields `idx`, `data`, `size`); the internal
                 `pairs` container is exactly `Seq (Pair α β)`.  The traversal
                 methods mirror the Go methods line by line.
* `IterInts`   — the internal `iterInts` container used by the Into/From tests
                 (it has no `size` field: exhaustion compares against
                 `len(data) - 1`).
* `IterableOps`— the capability protocol: the three required operations plus
                 the optional `Enumerator`, `Rewinder` and `Resetter`
                 capabilities, each an `Option` (`none` models a container for
                 which the Go type assertion `it.item.(X)` fails).  The `wf`
                 fields are proof infrastructure only (they guarantee that the
                 adapter-engine loops terminate) and have no Go counterpart.
* `iter`/`Iter`— the engine struct and the user-facing facade.

Go `int` cursors are modeled as `Int` (they start at `-1`); the `size` fields,
which are only ever assigned non-negative values, as `Nat`.  A Go method that
mutates its receiver through a pointer is modeled as a function returning the
updated state together with the original results.  Panics that the engine can
raise when a capability is missing are modeled by an `Option` result (`none` =
panic); `New()` never fails for any container of this package, so `new` is
total.  An out-of-range read (a Go panic, unreachable for states produced by
the API, where `size` always tracks the backing list) is modeled as `none`.
-/

namespace Goiter

/-- The two-slot value type produced only by `zip`: `&Pair{v1, v2}` sets
`X := v1`, `Y := v2`. -/
structure Pair (α β : Type) where
  X : α
  Y : β
deriving DecidableEq, Repr

/-- The list-backed reference container.  With `α := String` this is the
`IterStrings` struct of `iter.go` (`idx int`, `data []string`, `size int`);
with `α := Pair _ _` it is the `pairs` struct of `impl.go`. -/
structure Seq (α : Type) where
  idx : Int
  data : List α
  size : Nat
deriving DecidableEq, Repr

/-- Constructor `NewIterStrings` creates a new empty `IterStrings` struct (`idx: -1`). -/
def NewIterStrings : Seq String := ⟨-1, [], 0⟩

/-- Constructor `FromStrings` creates a new `IterStrings` from a `[]string`
(`idx: -1, data: s, size: len(s)`). -/
def FromStrings (s : List String) : Seq String := ⟨-1, s, s.length⟩

/-- Constructor `newPairs` creates the empty `pairs` container used internally by `zip`. -/
def newPairs (α β : Type) : Seq (Pair α β) := ⟨-1, [], 0⟩

/-- The fresh container produced by the `New()` protocol method of
`IterStrings` / `pairs` (cursor `-1`, no data). -/
def Seq.New (α : Type) : Seq α := ⟨-1, [], 0⟩

/-- Method `Next`: `is.idx++; if is.idx < is.size { return is.data[is.idx], true };
return nil, false`.  The element and the `bool` are packed into an `Option`.
A read with `idx < size` but outside `data` (impossible when `size` tracks
`data`, as it does for every state the API constructs) would be a Go panic and
is modeled as `none`, as is a negative cursor. -/
def Seq.next {α : Type} (s : Seq α) : Seq α × Option α :=
  let i := s.idx + 1
  ({ s with idx := i },
    if 0 ≤ i ∧ i < (s.size : Int) then s.data[i.toNat]? else none)

/-- Method `Enumerate`: like `Next` but returning the pair `{index, value}`.
In Go the index returned on success is the (non-negative) cursor, so it is
modeled as a `Nat`; the exhausted case `(-1, nil, false)` is `none`. -/
def Seq.enumerate {α : Type} (s : Seq α) : Seq α × Option (Nat × α) :=
  let i := s.idx + 1
  ({ s with idx := i },
    if 0 ≤ i ∧ i < (s.size : Int) then
      (s.data[i.toNat]?).map (fun a => (i.toNat, a))
    else none)

/-- Method `Rewind` sets the cursor back to the initial traversal state. -/
def Seq.Rewind {α : Type} (s : Seq α) : Seq α := { s with idx := -1 }

/-- Method `Reset`: `Rewind` plus dropping the data (`data = nil; size = 0`). -/
def Seq.Reset {α : Type} (_s : Seq α) : Seq α := ⟨-1, [], 0⟩

/-- Method `Add` appends one element and bumps `size`. -/
def Seq.Add {α : Type} (s : Seq α) (a : α) : Seq α :=
  { s with data := s.data ++ [a], size := s.size + 1 }

/-- The `iterInts` container of `impl.go`: `data []int`, `idx int64`, no
`size` field; exhaustion compares the cursor against `len(data) - 1`. -/
structure IterInts where
  data : List Int
  idx : Int
deriving DecidableEq, Repr

/-- Method `iterInts.New` returns `&iterInts{idx: -1}`. -/
def IterInts.New : IterInts := ⟨[], -1⟩

/-- Method `iterInts.Next`: `need := idx+1; more := !(need > len(data)-1); ...`. -/
def IterInts.next (s : IterInts) : IterInts × Option Int :=
  let need := s.idx + 1
  ({ s with idx := need },
    if 0 ≤ need ∧ need ≤ (s.data.length : Int) - 1 then s.data[need.toNat]?
    else none)

/-- Method `iterInts.Enumerate`. -/
def IterInts.enumerate (s : IterInts) : IterInts × Option (Nat × Int) :=
  let need := s.idx + 1
  ({ s with idx := need },
    if 0 ≤ need ∧ need ≤ (s.data.length : Int) - 1 then
      (s.data[need.toNat]?).map (fun a => (need.toNat, a))
    else none)

/-- Method `iterInts.Rewind`. -/
def IterInts.Rewind (s : IterInts) : IterInts := { s with idx := -1 }

/-- Method `iterInts.Reset`: `Rewind` plus `data = nil`. -/
def IterInts.Reset (_s : IterInts) : IterInts := ⟨[], -1⟩

/-- Method `iterInts.Add`. -/
def IterInts.Add (s : IterInts) (a : Int) : IterInts :=
  { s with data := s.data ++ [a] }

/-- The capability protocol.  `new`, `add`, `next` are the required `Iterable`
interface; `enumerate?`, `rewind?`, `reset?` are the optional `Enumerator`,
`Rewinder`, `Resetter` capabilities (`none` = the Go type assertion fails).
`wf`, `wf_next` and `wf_enum` are Lean-side termination infrastructure: every
container must make its traversal well founded, which is what the Go code
implicitly assumes when it drains a sequence to exhaustion. -/
structure IterableOps (σ α : Type) where
  new : σ
  add : σ → α → σ
  next : σ → σ × Option α
  enumerate? : Option (σ → σ × Option (Nat × α))
  rewind? : Option (σ → σ)
  reset? : Option (σ → σ)
  wf : σ → Nat
  wf_next : ∀ s s' a, next s = (s', some a) → wf s' < wf s
  wf_enum : ∀ e, enumerate? = some e →
    ∀ s s' i a, e s = (s', some (i, a)) → wf s' < wf s

theorem Seq.wf_next_aux {α : Type} (s s' : Seq α) (a : α)
    (h : s.next = (s', some a)) :
    ((s'.size : Int) - s'.idx).toNat < ((s.size : Int) - s.idx).toNat := by
  unfold Seq.next at h
  by_cases hc : 0 ≤ s.idx + 1 ∧ s.idx + 1 < (s.size : Int)
  · simp only [hc, if_pos] at h
    obtain ⟨h1, _⟩ := Prod.mk.injEq .. ▸ h
    subst h1
    dsimp only
    omega
  · simp [hc] at h

theorem Seq.wf_enum_aux {α : Type} (s s' : Seq α) (i : Nat) (a : α)
    (h : s.enumerate = (s', some (i, a))) :
    ((s'.size : Int) - s'.idx).toNat < ((s.size : Int) - s.idx).toNat := by
  unfold Seq.enumerate at h
  by_cases hc : 0 ≤ s.idx + 1 ∧ s.idx + 1 < (s.size : Int)
  · simp only [hc, if_pos] at h
    obtain ⟨h1, _⟩ := Prod.mk.injEq .. ▸ h
    subst h1
    dsimp only
    omega
  · simp [hc] at h

/-- The full capability dictionary of the reference container: `IterStrings`
(and `pairs`) implement `Iterable`, `Enumerator`, `Rewinder` and `Resetter`. -/
def seqOps (α : Type) : IterableOps (Seq α) α where
  new := Seq.New α
  add := Seq.Add
  next := Seq.next
  enumerate? := some Seq.enumerate
  rewind? := some Seq.Rewind
  reset? := some Seq.Reset
  wf := fun s => ((s.size : Int) - s.idx).toNat
  wf_next := Seq.wf_next_aux
  wf_enum := by
    intro e he s s' i a h
    obtain rfl : Seq.enumerate = e := Option.some.injEq .. ▸ he
    exact Seq.wf_enum_aux s s' i a h

theorem IterInts.wf_next_ints_aux (s s' : IterInts) (a : Int)
    (h : s.next = (s', some a)) :
    ((s'.data.length : Int) - s'.idx).toNat
      < ((s.data.length : Int) - s.idx).toNat := by
  unfold IterInts.next at h
  by_cases hc : 0 ≤ s.idx + 1 ∧ s.idx + 1 ≤ (s.data.length : Int) - 1
  · simp only [hc, if_pos] at h
    obtain ⟨h1, _⟩ := Prod.mk.injEq .. ▸ h
    subst h1
    dsimp only
    omega
  · simp [hc] at h

theorem IterInts.wf_enum_ints_aux (s s' : IterInts) (i : Nat) (a : Int)
    (h : s.enumerate = (s', some (i, a))) :
    ((s'.data.length : Int) - s'.idx).toNat
      < ((s.data.length : Int) - s.idx).toNat := by
  unfold IterInts.enumerate at h
  by_cases hc : 0 ≤ s.idx + 1 ∧ s.idx + 1 ≤ (s.data.length : Int) - 1
  · simp only [hc, if_pos] at h
    obtain ⟨h1, _⟩ := Prod.mk.injEq .. ▸ h
    subst h1
    dsimp only
    omega
  · simp [hc] at h

/-- Capability dictionary of `iterInts` (also a full implementation). -/
def iterIntsOps : IterableOps IterInts Int where
  new := IterInts.New
  add := IterInts.Add
  next := IterInts.next
  enumerate? := some IterInts.enumerate
  rewind? := some IterInts.Rewind
  reset? := some IterInts.Reset
  wf := fun s => ((s.data.length : Int) - s.idx).toNat
  wf_next := IterInts.wf_next_ints_aux
  wf_enum := by
    intro e he s s' i a h
    obtain rfl : IterInts.enumerate = e := Option.some.injEq .. ▸ he
    exact IterInts.wf_enum_ints_aux s s' i a h

/-- A minimal client-supplied container implementing only the three required
operations and none of the optional capabilities (the spec allows a Sequence
to implement zero of them).  Backed by the list of not-yet-visited
elements. -/
def plainOps (α : Type) : IterableOps (List α) α where
  new := []
  add := fun l a => l ++ [a]
  next := fun l => match l with
    | [] => ([], none)
    | a :: t => (t, some a)
  enumerate? := none
  rewind? := none
  reset? := none
  wf := List.length
  wf_next := by
    intro s s' a h
    match s with
    | [] => simp_all
    | b :: t =>
      obtain ⟨h1, _⟩ := Prod.mk.injEq .. ▸ h
      subst h1
      simp
  wf_enum := fun _ he => nomatch he

/-- The engine struct `iter` of `impl.go`: the wrapped `Iterable` plus the
step counter `size` used by `advanceBy`/`count`. -/
structure iter (σ : Type) where
  item : σ
  size : Nat
deriving DecidableEq, Repr

/-- Constructor `newIter` wraps an `Iterable` (`size` starts at its zero value `0`). -/
def newIter {σ : Type} (item : σ) : iter σ := ⟨item, 0⟩

/-- The loop of `filter`: `elm, more := it.item.Next(); if !more { break };
if f(elm) { newitem.Add(elm) }`. -/
def filterLoop {σ α : Type} (I : IterableOps σ α) (f : α → Bool)
    (s acc : σ) : σ × σ :=
  match h : I.next s with
  | (s', none) => (s', acc)
  | (s', some elm) => filterLoop I f s' (if f elm then I.add acc elm else acc)
termination_by I.wf s
decreasing_by exact I.wf_next s s' elm h

/-- Engine `iter.filter`: drains the receiver into a fresh container, keeping the
elements the predicate accepts.  Returns (mutated receiver, `newIter` result).
-/
def filter {σ α : Type} (I : IterableOps σ α) (f : α → Bool)
    (it : iter σ) : iter σ × iter σ :=
  let newitem := I.new
  let (s', acc) := filterLoop I f it.item newitem
  ({ it with item := s' }, newIter acc)

/-- The loop of `iter.apply` (the engine behind the facade `Map`). -/
def applyLoop {σ α : Type} (I : IterableOps σ α) (f : α → α)
    (s acc : σ) : σ × σ :=
  match h : I.next s with
  | (s', none) => (s', acc)
  | (s', some elm) => applyLoop I f s' (I.add acc (f elm))
termination_by I.wf s
decreasing_by exact I.wf_next s s' elm h

/-- Engine `iter.apply`: maps `f` over every element into a fresh container. -/
def apply {σ α : Type} (I : IterableOps σ α) (f : α → α)
    (it : iter σ) : iter σ × iter σ :=
  let newitem := I.new
  let (s', acc) := applyLoop I f it.item newitem
  ({ it with item := s' }, newIter acc)

/-- The loop of `iter.every`: `i, v, more := it.item.(Enumerator).Enumerate();
if !more { break }; newitem.Add(f(i, v))`. -/
def everyLoop {σ α : Type} (I : IterableOps σ α)
    (e : σ → σ × Option (Nat × α)) (he : I.enumerate? = some e)
    (f : Nat → α → α) (s acc : σ) : σ × σ :=
  match h : e s with
  | (s', none) => (s', acc)
  | (s', some (i, v)) => everyLoop I e he f s' (I.add acc (f i v))
termination_by I.wf s
decreasing_by exact I.wf_enum e he s s' i v h

/-- Engine `iter.every`: requires the `Enumerator` capability; the Go type assertion
`it.item.(Enumerator)` panics when it is missing, modeled as `none`. -/
def every {σ α : Type} (I : IterableOps σ α) (f : Nat → α → α)
    (it : iter σ) : Option (iter σ × iter σ) :=
  match he : I.enumerate? with
  | none => none
  | some e =>
    let newitem := I.new
    let (s', acc) := everyLoop I e he f it.item newitem
    some ({ it with item := s' }, newIter acc)

/-- The loop of `iter.or`: keeps elements the predicate accepts and replaces
the others with the supplied default. -/
def orLoop {σ α : Type} (I : IterableOps σ α) (f : α → Bool) (dflt : α)
    (s acc : σ) : σ × σ :=
  match h : I.next s with
  | (s', none) => (s', acc)
  | (s', some elm) =>
    orLoop I f dflt s' (if f elm then I.add acc elm else I.add acc dflt)
termination_by I.wf s
decreasing_by exact I.wf_next s s' elm h

/-- Engine `iter.or`. -/
def or {σ α : Type} (I : IterableOps σ α) (f : α → Bool) (dflt : α)
    (it : iter σ) : iter σ × iter σ :=
  let newitem := I.new
  let (s', acc) := orLoop I f dflt it.item newitem
  ({ it with item := s' }, newIter acc)

/-- The shared loop of `into` and `from` (their Go bodies are identical up to
which sequence is the source): `elm, more := src.Next(); if !more { break };
if thiselm, err := as(elm); err == nil { dst.Add(thiselm) }`.  A converter
returning a non-nil error is modeled as `none`; the element is skipped. -/
def convertLoop {σ₁ α₁ σ₂ α₂ : Type} (S : IterableOps σ₁ α₁)
    (addD : σ₂ → α₂ → σ₂) (as_ : α₁ → Option α₂) (s : σ₁) (d : σ₂) :
    σ₁ × σ₂ :=
  match h : S.next s with
  | (s', none) => (s', d)
  | (s', some elm) =>
    convertLoop S addD as_ s'
      (match as_ elm with
        | some newelm => addD d newelm
        | none => d)
termination_by S.wf s
decreasing_by exact S.wf_next s s' elm h

/-- Engine `iter.into`: if the caller-supplied target is a `Resetter`, `Reset` it
first; drain the receiver through the converter into the target; return
`newIter(target)`. -/
def into {σ α τ β : Type} (I : IterableOps σ α) (J : IterableOps τ β)
    (as_ : α → Option β) (it : iter σ) (target : τ) : iter σ × iter τ :=
  let target0 := match J.reset? with
    | some r => r target
    | none => target
  let (s', t') := convertLoop I J.add as_ it.item target0
  ({ it with item := s' }, newIter t')

/-- Engine `iter.from` (named `fromIt` because `from` is a Lean keyword): if the
receiver is a `Resetter`, `Reset` it and reuse it as the destination (the
returned iter is the receiver itself); otherwise build a fresh destination via
`New()`.  Drain `other` through the converter into the destination.  Returns
(receiver after the call, `other` after the call, the returned iter). -/
def fromIt {σ α τ β : Type} (I : IterableOps σ α) (J : IterableOps τ β)
    (as_ : β → Option α) (it : iter σ) (other : τ) : iter σ × τ × iter σ :=
  match I.reset? with
  | some r =>
    let newitem := r it.item
    let (o', filled) := convertLoop J I.add as_ other newitem
    let newit : iter σ := { it with item := filled }
    (newit, o', newit)
  | none =>
    let newitem := I.new
    let (o', filled) := convertLoop J I.add as_ other newitem
    (it, o', newIter filled)

/-- The loop of `iter.advanceBy`: up to `n` calls to `Next`, bumping the step
counter `it.size` per successful call; `more` carries the result of the last
`Next` (its Go zero value `false` if the loop never ran). -/
def advLoop {σ α : Type} (I : IterableOps σ α) :
    Nat → σ → Nat → Bool → σ × Nat × Bool
  | 0, s, sz, more => (s, sz, more)
  | n + 1, s, sz, _ =>
    match I.next s with
    | (s', none) => (s', sz, false)
    | (s', some _) => advLoop I n s' (sz + 1) true

/-- Engine `iter.advanceBy`: returns `(it.size - 1` clamped at `0, more)`.  The Go
clamp `if idx <= 0 { idx = 0 }` is exactly `Nat` subtraction here. -/
def advanceBy {σ α : Type} (I : IterableOps σ α) (it : iter σ) (n : Nat) :
    iter σ × Nat × Bool :=
  let (s', sz, more) := advLoop I n it.item it.size false
  (⟨s', sz⟩, sz - 1, more)

theorem wf_advanceBy_one {σ α : Type} (I : IterableOps σ α)
    (it it' : iter σ) (k : Nat) (h : advanceBy I it 1 = (it', k, true)) :
    I.wf it'.item < I.wf it.item := by
  unfold advanceBy advLoop at h
  rcases hn : I.next it.item with ⟨s', v⟩
  cases v with
  | none =>
    rw [hn] at h
    simp at h
  | some a =>
    rw [hn] at h
    unfold advLoop at h
    obtain ⟨h1, _⟩ := Prod.mk.injEq .. ▸ h
    have h2 : it'.item = s' := by rw [← h1]
    rw [h2]
    exact I.wf_next _ _ _ hn

/-- The loop of `iter.count`: `var more = true; for more { _, more =
it.advanceBy(1) }`. -/
def countLoop {σ α : Type} (I : IterableOps σ α) (it : iter σ) : iter σ :=
  match h : advanceBy I it 1 with
  | (it', _, true) => countLoop I it'
  | (it', _, false) => it'
termination_by I.wf it.item
decreasing_by exact wf_advanceBy_one I it it' _ h

/-- Engine `iter.count`: runs the loop, reads `it.size` as the return value, then the
deferred block rewinds the item and zeroes the step counter when the item is a
`Rewinder`. -/
def count {σ α : Type} (I : IterableOps σ α) (it : iter σ) : iter σ × Nat :=
  let itF := countLoop I it
  match I.rewind? with
  | some r => (⟨r itF.item, 0⟩, itF.size)
  | none => (itF, itF.size)

/-- The loop of `iter.first`: stops at the first element the predicate
accepts; on exhaustion `Enumerate` has returned `(-1, nil, false)`. -/
def firstLoop {σ α : Type} (I : IterableOps σ α)
    (e : σ → σ × Option (Nat × α)) (he : I.enumerate? = some e)
    (f : α → Bool) (s : σ) : σ × (Int × Option α × Bool) :=
  match h : e s with
  | (s', none) => (s', (-1, none, false))
  | (s', some (i, v)) =>
    if f v then (s', ((i : Int), some v, true)) else firstLoop I e he f s'
termination_by I.wf s
decreasing_by exact I.wf_enum e he s s' i v h

/-- Engine `iter.first`: requires the `Enumerator` capability (`none` = the Go type
assertion panics). -/
def first {σ α : Type} (I : IterableOps σ α) (f : α → Bool) (it : iter σ) :
    Option (iter σ × (Int × Option α × Bool)) :=
  match he : I.enumerate? with
  | none => none
  | some e =>
    let (s', r) := firstLoop I e he f it.item
    some ({ it with item := s' }, r)

/-- The loop of `iter.last`: scans everything, tracking the most recent match
in the accumulator `(idx, seen, found)`, initially `(-1, nil, false)`. -/
def lastLoop {σ α : Type} (I : IterableOps σ α)
    (e : σ → σ × Option (Nat × α)) (he : I.enumerate? = some e)
    (f : α → Bool) (s : σ) (acc : Int × Option α × Bool) :
    σ × (Int × Option α × Bool) :=
  match h : e s with
  | (s', none) => (s', acc)
  | (s', some (i, v)) =>
    lastLoop I e he f s' (if f v then ((i : Int), some v, true) else acc)
termination_by I.wf s
decreasing_by exact I.wf_enum e he s s' i v h

/-- Engine `iter.last`: requires the `Enumerator` capability. -/
def last {σ α : Type} (I : IterableOps σ α) (f : α → Bool) (it : iter σ) :
    Option (iter σ × (Int × Option α × Bool)) :=
  match he : I.enumerate? with
  | none => none
  | some e =>
    let (s', r) := lastLoop I e he f it.item (-1, none, false)
    some ({ it with item := s' }, r)

/-- The loop of `iter.zip`: `v1, more1 := it.item.Next(); v2, more2 :=
other.Next(); if !more1 || !more2 { break }; np.Add(&Pair{v1, v2})`.  Note
both `Next` calls happen before the check, so on the break iteration both
cursors have already advanced. -/
def zipLoop {σ α τ β : Type} (I : IterableOps σ α) (J : IterableOps τ β)
    (s : σ) (t : τ) (np : Seq (Pair α β)) : σ × τ × Seq (Pair α β) :=
  match h1 : I.next s with
  | (s', none) =>
    let (t', _) := J.next t
    (s', t', np)
  | (s', some v1) =>
    match J.next t with
    | (t', none) => (s', t', np)
    | (t', some v2) => zipLoop I J s' t' (np.Add ⟨v1, v2⟩)
termination_by I.wf s
decreasing_by exact I.wf_next s s' v1 h1

/-- Engine `iter.zip`: drains both sources in lock step into a fresh `pairs`
container. -/
def zip {σ α τ β : Type} (I : IterableOps σ α) (J : IterableOps τ β)
    (it : iter σ) (other : τ) : iter σ × τ × iter (Seq (Pair α β)) :=
  let np := newPairs α β
  let (s', t', np') := zipLoop I J it.item other np
  ({ it with item := s' }, t', newIter np')

/-- The facade `Iter` of `iter.go`: wraps one engine `iter`. -/
structure Iter (σ : Type) where
  impl : iter σ
deriving DecidableEq, Repr

/-- Constructor `New` wraps an `Iterable` in a fresh facade. -/
def New {σ : Type} (s : σ) : Iter σ := ⟨newIter s⟩

/-- Facade `Filter`: delegates to the engine, wrapping both the (mutated)
receiver and the result. -/
def Iter.Filter {σ α : Type} (I : IterableOps σ α) (f : α → Bool)
    (it : Iter σ) : Iter σ × Iter σ :=
  let (self', res) := filter I f it.impl
  (⟨self'⟩, ⟨res⟩)

/-- Facade `Map`: delegates to the engine `apply`. -/
def Iter.Map {σ α : Type} (I : IterableOps σ α) (f : α → α)
    (it : Iter σ) : Iter σ × Iter σ :=
  let (self', res) := apply I f it.impl
  (⟨self'⟩, ⟨res⟩)

/-- Facade `Every`: delegates to the engine `every`. -/
def Iter.Every {σ α : Type} (I : IterableOps σ α) (f : Nat → α → α)
    (it : Iter σ) : Option (Iter σ × Iter σ) :=
  (every I f it.impl).map (fun p => (⟨p.1⟩, ⟨p.2⟩))

/-- Facade `Or`: delegates to the engine `or`. -/
def Iter.Or {σ α : Type} (I : IterableOps σ α) (f : α → Bool) (dflt : α)
    (it : Iter σ) : Iter σ × Iter σ :=
  let (self', res) := or I f dflt it.impl
  (⟨self'⟩, ⟨res⟩)

/-- Facade `Advance`: delegates to the engine `advanceBy`. -/
def Iter.Advance {σ α : Type} (I : IterableOps σ α) (it : Iter σ) (n : Nat) :
    Iter σ × Nat × Bool :=
  let (it', i, b) := advanceBy I it.impl n
  (⟨it'⟩, i, b)

/-- Facade `Count`: delegates to the engine `count`. -/
def Iter.Count {σ α : Type} (I : IterableOps σ α) (it : Iter σ) :
    Iter σ × Nat :=
  let (it', n) := count I it.impl
  (⟨it'⟩, n)

/-- Facade `Into`: delegates to the engine `into`. -/
def Iter.Into {σ α τ β : Type} (I : IterableOps σ α) (J : IterableOps τ β)
    (as_ : α → Option β) (it : Iter σ) (target : τ) : Iter σ × Iter τ :=
  let (self', res) := into I J as_ it.impl target
  (⟨self'⟩, ⟨res⟩)

/-- Facade `From`: delegates to the engine `from`. -/
def Iter.From {σ α τ β : Type} (I : IterableOps σ α) (J : IterableOps τ β)
    (as_ : β → Option α) (it : Iter σ) (other : τ) : Iter σ × τ × Iter σ :=
  let (self', o', res) := fromIt I J as_ it.impl other
  (⟨self'⟩, o', ⟨res⟩)

/-- Facade `Nth` (`iter.go` lines 499-510): `it.impl.advanceBy(n)`, one more
`Next` for the element itself, then the deferred `Rewind` when the item is a
`Rewinder`.  `nil` for an out-of-range `n` is `none`. -/
def Iter.Nth {σ α : Type} (I : IterableOps σ α) (it : Iter σ) (n : Nat) :
    Iter σ × Option α :=
  let (it1, _, _) := advanceBy I it.impl n
  let (s2, v) := I.next it1.item
  let s3 := match I.rewind? with
    | some r => r s2
    | none => s2
  (⟨⟨s3, it1.size⟩⟩, v)

/-- The list of elements a traversal of `s` still yields (statement
vocabulary, not part of the Go source). -/
def drain {σ α : Type} (I : IterableOps σ α) (s : σ) : List α :=
  match h : I.next s with
  | (_, none) => []
  | (s', some a) => a :: drain I s'
termination_by I.wf s
decreasing_by exact I.wf_next s s' a h

/-- The not-yet-visited suffix of a reference container (statement
vocabulary). -/
def Seq.view {α : Type} (s : Seq α) : List α :=
  s.data.drop ((s.idx + 1).toNat)

/-- Well-formedness of a reference-container state: `size` tracks the backing
list and the cursor is at or after its initial position.  Every state the Go
API constructs satisfies this. -/
def Seq.Inv {α : Type} (s : Seq α) : Prop :=
  s.size = s.data.length ∧ -1 ≤ s.idx

instance {α : Type} (s : Seq α) : Decidable s.Inv := by
  unfold Seq.Inv
  infer_instance

/-- The state after `k` further `Next` calls (statement vocabulary). -/
def Seq.afterN {α : Type} (s : Seq α) : Nat → Seq α
  | 0 => s
  | k + 1 => ((s.afterN k).next).1

/-- Generic fresh container over a list (the generic analogue of
`FromStrings`; statement vocabulary). -/
def Seq.fromList {α : Type} (l : List α) : Seq α := ⟨-1, l, l.length⟩

theorem Seq.fromList_Inv {α : Type} (l : List α) : (Seq.fromList l).Inv :=
  ⟨rfl, by simp [Seq.fromList]⟩

theorem Seq.fromList_view {α : Type} (l : List α) :
    (Seq.fromList l).view = l := by
  simp [Seq.fromList, Seq.view]

theorem Seq.Inv_succ {α : Type} {s : Seq α} (h : s.Inv) :
    (({ s with idx := s.idx + 1 }) : Seq α).Inv :=
  ⟨h.1, by have := h.2; dsimp only; omega⟩

theorem Seq.next_view_cons {α : Type} {s : Seq α} {x : α} {l : List α}
    (hInv : s.Inv) (hv : s.view = x :: l) :
    s.next = ({ s with idx := s.idx + 1 }, some x) := by
  obtain ⟨hsz, hidx⟩ := hInv
  unfold Seq.view at hv
  have hlen : (s.idx + 1).toNat < s.data.length := by
    by_contra hge
    rw [List.drop_eq_nil_of_le (by omega)] at hv
    cases hv
  have hguard : 0 ≤ s.idx + 1 ∧ s.idx + 1 < (s.size : Int) := by
    constructor
    · omega
    · omega
  have hget : s.data[(s.idx + 1).toNat]? = some x := by
    have h0 : (s.data.drop ((s.idx + 1).toNat))[0]? = some x := by
      rw [hv]
      simp
    rw [List.getElem?_drop] at h0
    simpa using h0
  unfold Seq.next
  simp only [hguard, and_self, if_pos, hget]

theorem Seq.next_view_nil {α : Type} {s : Seq α} (hInv : s.Inv)
    (hv : s.view = []) :
    s.next = ({ s with idx := s.idx + 1 }, none) := by
  obtain ⟨hsz, hidx⟩ := hInv
  unfold Seq.view at hv
  have hlen : s.data.length ≤ (s.idx + 1).toNat := by
    by_contra hlt
    have hle := congrArg List.length hv
    simp only [List.length_drop, List.length_nil] at hle
    omega
  have hguard : ¬(0 ≤ s.idx + 1 ∧ s.idx + 1 < (s.size : Int)) := by
    intro ⟨h0, h1⟩
    omega
  unfold Seq.next
  simp only [hguard, if_neg, not_false_iff]

theorem Seq.view_succ_cons {α : Type} {s : Seq α} {x : α} {l : List α}
    (hInv : s.Inv) (hv : s.view = x :: l) :
    (({ s with idx := s.idx + 1 }) : Seq α).view = l := by
  have hidx := hInv.2
  unfold Seq.view at hv ⊢
  dsimp only
  have harith : (s.idx + 1 + 1).toNat = (s.idx + 1).toNat + 1 := by omega
  rw [harith, ← List.tail_drop, hv]
  simp

theorem Seq.view_succ_nil {α : Type} {s : Seq α} (hInv : s.Inv)
    (hv : s.view = []) :
    (({ s with idx := s.idx + 1 }) : Seq α).view = [] := by
  have hidx := hInv.2
  unfold Seq.view at hv ⊢
  dsimp only
  have harith : (s.idx + 1 + 1).toNat = (s.idx + 1).toNat + 1 := by omega
  rw [harith, ← List.tail_drop, hv]
  simp

theorem Seq.enum_view_cons {α : Type} {s : Seq α} {x : α} {l : List α}
    (hInv : s.Inv) (hv : s.view = x :: l) :
    s.enumerate = ({ s with idx := s.idx + 1 }, some ((s.idx + 1).toNat, x))
    := by
  obtain ⟨hsz, hidx⟩ := hInv
  unfold Seq.view at hv
  have hlen : (s.idx + 1).toNat < s.data.length := by
    by_contra hge
    rw [List.drop_eq_nil_of_le (by omega)] at hv
    cases hv
  have hguard : 0 ≤ s.idx + 1 ∧ s.idx + 1 < (s.size : Int) := by
    constructor
    · omega
    · omega
  have hget : s.data[(s.idx + 1).toNat]? = some x := by
    have h0 : (s.data.drop ((s.idx + 1).toNat))[0]? = some x := by
      rw [hv]
      simp
    rw [List.getElem?_drop] at h0
    simpa using h0
  unfold Seq.enumerate
  simp only [hguard, and_self, if_pos, hget]
  rfl

theorem Seq.enum_view_nil {α : Type} {s : Seq α} (hInv : s.Inv)
    (hv : s.view = []) :
    s.enumerate = ({ s with idx := s.idx + 1 }, none) := by
  obtain ⟨hsz, hidx⟩ := hInv
  unfold Seq.view at hv
  have hlen : s.data.length ≤ (s.idx + 1).toNat := by
    by_contra hlt
    have hle := congrArg List.length hv
    simp only [List.length_drop, List.length_nil] at hle
    omega
  have hguard : ¬(0 ≤ s.idx + 1 ∧ s.idx + 1 < (s.size : Int)) := by
    intro ⟨h0, h1⟩
    omega
  unfold Seq.enumerate
  simp only [hguard, if_neg, not_false_iff]

theorem drain_of_none {σ α : Type} {I : IterableOps σ α} {s t : σ}
    (h : I.next s = (t, none)) : drain I s = [] := by
  rw [drain.eq_def]
  split
  · rfl
  · next s' x heq =>
    rw [h] at heq
    simp at heq

theorem drain_of_some {σ α : Type} {I : IterableOps σ α} {s t : σ} {x : α}
    (h : I.next s = (t, some x)) : drain I s = x :: drain I t := by
  rw [drain.eq_def]
  split
  · next fst heq =>
    rw [h] at heq
    simp at heq
  · next s' y heq =>
    rw [h] at heq
    obtain ⟨h1, h2⟩ := Prod.mk.injEq .. ▸ heq
    obtain h3 := Option.some.injEq .. ▸ h2
    subst h1
    subst h3
    rfl

theorem filterLoop_of_none {σ α : Type} {I : IterableOps σ α} {f : α → Bool}
    {s t acc : σ} (h : I.next s = (t, none)) :
    filterLoop I f s acc = (t, acc) := by
  rw [filterLoop.eq_def]
  split
  · next fst heq =>
    rw [h] at heq
    obtain ⟨h1, _⟩ := Prod.mk.injEq .. ▸ heq
    subst h1
    rfl
  · next s' x heq =>
    rw [h] at heq
    simp at heq

theorem filterLoop_of_some {σ α : Type} {I : IterableOps σ α} {f : α → Bool}
    {s t acc : σ} {x : α} (h : I.next s = (t, some x)) :
    filterLoop I f s acc
      = filterLoop I f t (if f x then I.add acc x else acc) := by
  rw [filterLoop.eq_def]
  split
  · next fst heq =>
    rw [h] at heq
    simp at heq
  · next s' y heq =>
    rw [h] at heq
    obtain ⟨h1, h2⟩ := Prod.mk.injEq .. ▸ heq
    obtain h3 := Option.some.injEq .. ▸ h2
    subst h1
    subst h3
    rfl

theorem applyLoop_of_none {σ α : Type} {I : IterableOps σ α} {f : α → α}
    {s t acc : σ} (h : I.next s = (t, none)) :
    applyLoop I f s acc = (t, acc) := by
  rw [applyLoop.eq_def]
  split
  · next fst heq =>
    rw [h] at heq
    obtain ⟨h1, _⟩ := Prod.mk.injEq .. ▸ heq
    subst h1
    rfl
  · next s' x heq =>
    rw [h] at heq
    simp at heq

theorem applyLoop_of_some {σ α : Type} {I : IterableOps σ α} {f : α → α}
    {s t acc : σ} {x : α} (h : I.next s = (t, some x)) :
    applyLoop I f s acc = applyLoop I f t (I.add acc (f x)) := by
  rw [applyLoop.eq_def]
  split
  · next fst heq =>
    rw [h] at heq
    simp at heq
  · next s' y heq =>
    rw [h] at heq
    obtain ⟨h1, h2⟩ := Prod.mk.injEq .. ▸ heq
    obtain h3 := Option.some.injEq .. ▸ h2
    subst h1
    subst h3
    rfl

theorem orLoop_of_none {σ α : Type} {I : IterableOps σ α} {f : α → Bool}
    {dflt : α} {s t acc : σ} (h : I.next s = (t, none)) :
    orLoop I f dflt s acc = (t, acc) := by
  rw [orLoop.eq_def]
  split
  · next fst heq =>
    rw [h] at heq
    obtain ⟨h1, _⟩ := Prod.mk.injEq .. ▸ heq
    subst h1
    rfl
  · next s' x heq =>
    rw [h] at heq
    simp at heq

theorem orLoop_of_some {σ α : Type} {I : IterableOps σ α} {f : α → Bool}
    {dflt : α} {s t acc : σ} {x : α} (h : I.next s = (t, some x)) :
    orLoop I f dflt s acc
      = orLoop I f dflt t (if f x then I.add acc x else I.add acc dflt) := by
  rw [orLoop.eq_def]
  split
  · next fst heq =>
    rw [h] at heq
    simp at heq
  · next s' y heq =>
    rw [h] at heq
    obtain ⟨h1, h2⟩ := Prod.mk.injEq .. ▸ heq
    obtain h3 := Option.some.injEq .. ▸ h2
    subst h1
    subst h3
    rfl

theorem convertLoop_of_none {σ₁ α₁ σ₂ α₂ : Type} {S : IterableOps σ₁ α₁}
    {addD : σ₂ → α₂ → σ₂} {as_ : α₁ → Option α₂} {s t : σ₁} {d : σ₂}
    (h : S.next s = (t, none)) :
    convertLoop S addD as_ s d = (t, d) := by
  rw [convertLoop.eq_def]
  split
  · next fst heq =>
    rw [h] at heq
    obtain ⟨h1, _⟩ := Prod.mk.injEq .. ▸ heq
    subst h1
    rfl
  · next s' x heq =>
    rw [h] at heq
    simp at heq

theorem convertLoop_of_some {σ₁ α₁ σ₂ α₂ : Type} {S : IterableOps σ₁ α₁}
    {addD : σ₂ → α₂ → σ₂} {as_ : α₁ → Option α₂} {s t : σ₁} {d : σ₂} {x : α₁}
    (h : S.next s = (t, some x)) :
    convertLoop S addD as_ s d
      = convertLoop S addD as_ t
          (match as_ x with
            | some newelm => addD d newelm
            | none => d) := by
  rw [convertLoop.eq_def]
  split
  · next fst heq =>
    rw [h] at heq
    simp at heq
  · next s' y heq =>
    rw [h] at heq
    obtain ⟨h1, h2⟩ := Prod.mk.injEq .. ▸ heq
    obtain h3 := Option.some.injEq .. ▸ h2
    subst h1
    subst h3
    rfl

theorem everyLoop_of_none {σ α : Type} {I : IterableOps σ α}
    {e : σ → σ × Option (Nat × α)} {he : I.enumerate? = some e}
    {f : Nat → α → α} {s t acc : σ} (h : e s = (t, none)) :
    everyLoop I e he f s acc = (t, acc) := by
  rw [everyLoop.eq_def]
  split
  · next fst heq =>
    rw [h] at heq
    obtain ⟨h1, _⟩ := Prod.mk.injEq .. ▸ heq
    subst h1
    rfl
  · next s' i v heq =>
    rw [h] at heq
    simp at heq

theorem everyLoop_of_some {σ α : Type} {I : IterableOps σ α}
    {e : σ → σ × Option (Nat × α)} {he : I.enumerate? = some e}
    {f : Nat → α → α} {s t acc : σ} {i : Nat} {v : α}
    (h : e s = (t, some (i, v))) :
    everyLoop I e he f s acc = everyLoop I e he f t (I.add acc (f i v)) := by
  rw [everyLoop.eq_def]
  split
  · next fst heq =>
    rw [h] at heq
    simp at heq
  · next s' i' v' heq =>
    rw [h] at heq
    simp only [Prod.mk.injEq, Option.some.injEq] at heq
    obtain ⟨h1, h2, h3⟩ := heq
    subst h1
    subst h2
    subst h3
    rfl

theorem firstLoop_of_none {σ α : Type} {I : IterableOps σ α}
    {e : σ → σ × Option (Nat × α)} {he : I.enumerate? = some e}
    {f : α → Bool} {s t : σ} (h : e s = (t, none)) :
    firstLoop I e he f s = (t, (-1, none, false)) := by
  rw [firstLoop.eq_def]
  split
  · next fst heq =>
    rw [h] at heq
    obtain ⟨h1, _⟩ := Prod.mk.injEq .. ▸ heq
    subst h1
    rfl
  · next s' i v heq =>
    rw [h] at heq
    simp at heq

theorem firstLoop_of_some {σ α : Type} {I : IterableOps σ α}
    {e : σ → σ × Option (Nat × α)} {he : I.enumerate? = some e}
    {f : α → Bool} {s t : σ} {i : Nat} {v : α} (h : e s = (t, some (i, v))) :
    firstLoop I e he f s
      = if f v then (t, ((i : Int), some v, true)) else firstLoop I e he f t
    := by
  rw [firstLoop.eq_def]
  split
  · next fst heq =>
    rw [h] at heq
    simp at heq
  · next s' i' v' heq =>
    rw [h] at heq
    simp only [Prod.mk.injEq, Option.some.injEq] at heq
    obtain ⟨h1, h2, h3⟩ := heq
    subst h1
    subst h2
    subst h3
    rfl

theorem lastLoop_of_none {σ α : Type} {I : IterableOps σ α}
    {e : σ → σ × Option (Nat × α)} {he : I.enumerate? = some e}
    {f : α → Bool} {s t : σ} {acc : Int × Option α × Bool}
    (h : e s = (t, none)) :
    lastLoop I e he f s acc = (t, acc) := by
  rw [lastLoop.eq_def]
  split
  · next fst heq =>
    rw [h] at heq
    obtain ⟨h1, _⟩ := Prod.mk.injEq .. ▸ heq
    subst h1
    rfl
  · next s' i v heq =>
    rw [h] at heq
    simp at heq

theorem lastLoop_of_some {σ α : Type} {I : IterableOps σ α}
    {e : σ → σ × Option (Nat × α)} {he : I.enumerate? = some e}
    {f : α → Bool} {s t : σ} {acc : Int × Option α × Bool} {i : Nat} {v : α}
    (h : e s = (t, some (i, v))) :
    lastLoop I e he f s acc
      = lastLoop I e he f t (if f v then ((i : Int), some v, true) else acc)
    := by
  rw [lastLoop.eq_def]
  split
  · next fst heq =>
    rw [h] at heq
    simp at heq
  · next s' i' v' heq =>
    rw [h] at heq
    simp only [Prod.mk.injEq, Option.some.injEq] at heq
    obtain ⟨h1, h2, h3⟩ := heq
    subst h1
    subst h2
    subst h3
    rfl

theorem zipLoop_of_none {σ α τ β : Type} {I : IterableOps σ α}
    {J : IterableOps τ β} {s s' : σ} {t : τ} {np : Seq (Pair α β)}
    (h1 : I.next s = (s', none)) :
    zipLoop I J s t np = (s', (J.next t).1, np) := by
  rw [zipLoop.eq_def]
  split
  · next fst heq =>
    rw [h1] at heq
    obtain ⟨hA, _⟩ := Prod.mk.injEq .. ▸ heq
    subst hA
    rfl
  · next fst v1 heq =>
    rw [h1] at heq
    simp at heq

theorem zipLoop_of_some_none {σ α τ β : Type} {I : IterableOps σ α}
    {J : IterableOps τ β} {s s' : σ} {t t' : τ} {v1 : α}
    {np : Seq (Pair α β)} (h1 : I.next s = (s', some v1))
    (h2 : J.next t = (t', none)) :
    zipLoop I J s t np = (s', t', np) := by
  rw [zipLoop.eq_def]
  split
  · next fst heq =>
    rw [h1] at heq
    simp at heq
  · next fst w1 heq =>
    rw [h1] at heq
    simp only [Prod.mk.injEq, Option.some.injEq] at heq
    obtain ⟨hA, hB⟩ := heq
    subst hA
    subst hB
    rw [h2]

theorem zipLoop_of_some_some {σ α τ β : Type} {I : IterableOps σ α}
    {J : IterableOps τ β} {s s' : σ} {t t' : τ} {v1 : α} {v2 : β}
    {np : Seq (Pair α β)} (h1 : I.next s = (s', some v1))
    (h2 : J.next t = (t', some v2)) :
    zipLoop I J s t np = zipLoop I J s' t' (np.Add ⟨v1, v2⟩) := by
  rw [zipLoop.eq_def]
  split
  · next fst heq =>
    rw [h1] at heq
    simp at heq
  · next fst w1 heq =>
    rw [h1] at heq
    simp only [Prod.mk.injEq, Option.some.injEq] at heq
    obtain ⟨hA, hB⟩ := heq
    subst hA
    subst hB
    rw [h2]

theorem countLoop_of_true {σ α : Type} {I : IterableOps σ α} {it it' : iter σ}
    {k : Nat} (h : advanceBy I it 1 = (it', k, true)) :
    countLoop I it = countLoop I it' := by
  rw [countLoop.eq_def]
  split
  · next it2 k2 heq =>
    rw [h] at heq
    simp only [Prod.mk.injEq] at heq
    obtain ⟨hA, _⟩ := heq
    subst hA
    rfl
  · next it2 k2 heq =>
    rw [h] at heq
    simp at heq

theorem countLoop_of_false {σ α : Type} {I : IterableOps σ α}
    {it it' : iter σ} {k : Nat} (h : advanceBy I it 1 = (it', k, false)) :
    countLoop I it = it' := by
  rw [countLoop.eq_def]
  split
  · next it2 k2 heq =>
    rw [h] at heq
    simp at heq
  · next it2 k2 heq =>
    rw [h] at heq
    simp only [Prod.mk.injEq] at heq
    obtain ⟨hA, _⟩ := heq
    subst hA
    rfl

@[simp] theorem seqOps_next (α : Type) : (seqOps α).next = Seq.next := rfl

@[simp] theorem seqOps_add (α : Type) : (seqOps α).add = Seq.Add := rfl

@[simp] theorem seqOps_new (α : Type) : (seqOps α).new = Seq.New α := rfl

@[simp] theorem seqOps_enum (α : Type) :
    (seqOps α).enumerate? = some Seq.enumerate := rfl

@[simp] theorem seqOps_rewind (α : Type) :
    (seqOps α).rewind? = some Seq.Rewind := rfl

@[simp] theorem seqOps_reset (α : Type) :
    (seqOps α).reset? = some Seq.Reset := rfl

theorem Seq.next_fst {α : Type} (s : Seq α) :
    (s.next).1 = { s with idx := s.idx + 1 } := rfl

theorem drain_seq {α : Type} :
    ∀ (l : List α) (s : Seq α), s.Inv → s.view = l →
      drain (seqOps α) s = l := by
  intro l
  induction l with
  | nil =>
    intro s hInv hv
    exact drain_of_none (Seq.next_view_nil hInv hv)
  | cons x t ih =>
    intro s hInv hv
    rw [drain_of_some (Seq.next_view_cons hInv hv)]
    rw [ih _ (Seq.Inv_succ hInv) (Seq.view_succ_cons hInv hv)]

theorem filterLoop_seq {α : Type} (f : α → Bool) :
    ∀ (l : List α) (s acc : Seq α), s.Inv → s.view = l →
      filterLoop (seqOps α) f s acc
        = (⟨s.idx + l.length + 1, s.data, s.size⟩,
           ⟨acc.idx, acc.data ++ l.filter f,
            acc.size + (l.filter f).length⟩) := by
  intro l
  induction l with
  | nil =>
    intro s acc hInv hv
    rw [filterLoop_of_none (Seq.next_view_nil hInv hv)]
    simp
  | cons x t ih =>
    intro s acc hInv hv
    rw [filterLoop_of_some (Seq.next_view_cons hInv hv)]
    rw [show (seqOps α).add = Seq.Add from rfl]
    rw [ih _ _ (Seq.Inv_succ hInv) (Seq.view_succ_cons hInv hv)]
    by_cases hx : f x
    · simp only [hx, if_pos, List.filter_cons_of_pos, Seq.Add,
        Prod.mk.injEq, Seq.mk.injEq, List.length_cons]
      and_intros <;> (first | trivial | (dsimp only; omega) | omega | simp)
    · simp only [hx, Bool.false_eq_true, if_neg, not_false_iff,
        List.filter_cons_of_neg, Seq.Add, Prod.mk.injEq, Seq.mk.injEq,
        List.length_cons]
      and_intros <;> (first | trivial | (dsimp only; omega) | omega | simp)

theorem applyLoop_seq {α : Type} (f : α → α) :
    ∀ (l : List α) (s acc : Seq α), s.Inv → s.view = l →
      applyLoop (seqOps α) f s acc
        = (⟨s.idx + l.length + 1, s.data, s.size⟩,
           ⟨acc.idx, acc.data ++ l.map f, acc.size + l.length⟩) := by
  intro l
  induction l with
  | nil =>
    intro s acc hInv hv
    rw [applyLoop_of_none (Seq.next_view_nil hInv hv)]
    simp
  | cons x t ih =>
    intro s acc hInv hv
    rw [applyLoop_of_some (Seq.next_view_cons hInv hv)]
    rw [show (seqOps α).add = Seq.Add from rfl]
    rw [ih _ _ (Seq.Inv_succ hInv) (Seq.view_succ_cons hInv hv)]
    simp only [Seq.Add, List.map_cons, Prod.mk.injEq, Seq.mk.injEq,
      List.length_cons]
    and_intros <;> (first | trivial | (dsimp only; omega) | omega | simp)

theorem orLoop_seq {α : Type} (f : α → Bool) (dflt : α) :
    ∀ (l : List α) (s acc : Seq α), s.Inv → s.view = l →
      orLoop (seqOps α) f dflt s acc
        = (⟨s.idx + l.length + 1, s.data, s.size⟩,
           ⟨acc.idx, acc.data ++ l.map (fun a => if f a then a else dflt),
            acc.size + l.length⟩) := by
  intro l
  induction l with
  | nil =>
    intro s acc hInv hv
    rw [orLoop_of_none (Seq.next_view_nil hInv hv)]
    simp
  | cons x t ih =>
    intro s acc hInv hv
    rw [orLoop_of_some (Seq.next_view_cons hInv hv)]
    rw [show (seqOps α).add = Seq.Add from rfl]
    rw [ih _ _ (Seq.Inv_succ hInv) (Seq.view_succ_cons hInv hv)]
    by_cases hx : f x
    · simp only [hx, if_pos, Seq.Add, List.map_cons, Prod.mk.injEq,
        Seq.mk.injEq, List.length_cons]
      and_intros <;> (first | trivial | (dsimp only; omega) | omega | simp)
    · simp only [hx, Bool.false_eq_true, if_neg, not_false_iff, Seq.Add,
        List.map_cons, Prod.mk.injEq, Seq.mk.injEq, List.length_cons]
      and_intros <;> (first | trivial | (dsimp only; omega) | omega | simp)

theorem everyLoop_seq {α : Type} (f : Nat → α → α) :
    ∀ (l : List α) (b : Nat) (s acc : Seq α), s.Inv →
      s.idx = (b : Int) - 1 → s.view = l →
      everyLoop (seqOps α) Seq.enumerate rfl f s acc
        = (⟨s.idx + l.length + 1, s.data, s.size⟩,
           ⟨acc.idx,
            acc.data ++ (List.enumFrom b l).map (fun p => f p.1 p.2),
            acc.size + l.length⟩) := by
  intro l
  induction l with
  | nil =>
    intro b s acc hInv hb hv
    rw [everyLoop_of_none (Seq.enum_view_nil hInv hv)]
    simp
  | cons x t ih =>
    intro b s acc hInv hb hv
    rw [everyLoop_of_some (Seq.enum_view_cons hInv hv)]
    rw [show (seqOps α).add = Seq.Add from rfl]
    have hbn : (s.idx + 1).toNat = b := by omega
    have hb' : ({ s with idx := s.idx + 1 } : Seq α).idx
        = ((b + 1 : Nat) : Int) - 1 := by
      dsimp only
      omega
    rw [ih (b + 1) _ _ (Seq.Inv_succ hInv) hb' (Seq.view_succ_cons hInv hv)]
    rw [hbn]
    simp only [Seq.Add, List.enumFrom_cons, List.map_cons, Prod.mk.injEq,
      Seq.mk.injEq, List.length_cons]
    and_intros <;> (first | trivial | (dsimp only; omega) | omega | simp)

theorem advLoop_seq_le {α : Type} :
    ∀ (n : Nat) (l : List α) (s : Seq α) (sz : Nat) (m0 : Bool), s.Inv →
      s.view = l → 1 ≤ n → n ≤ l.length →
      advLoop (seqOps α) n s sz m0
        = (⟨s.idx + n, s.data, s.size⟩, sz + n, true) := by
  intro n
  induction n with
  | zero =>
    intro l s sz m0 _ _ h1 _
    omega
  | succ k ih =>
    intro l s sz m0 hInv hv _ hn
    match l with
    | [] => simp at hn
    | x :: t =>
      rw [advLoop]
      rw [show (seqOps α).next = Seq.next from rfl]
      rw [Seq.next_view_cons hInv hv]
      dsimp only
      match k with
      | 0 =>
        simp only [advLoop]
        simp only [Prod.mk.injEq, Seq.mk.injEq, List.length_cons]
        and_intros <;> (first | trivial | (dsimp only; omega) | omega | simp)
      | m + 1 =>
        rw [ih t ⟨s.idx + 1, s.data, s.size⟩ (sz + 1) true
          (Seq.Inv_succ hInv) (Seq.view_succ_cons hInv hv) (by omega)
          (by simp at hn; omega)]
        simp only [Prod.mk.injEq, Seq.mk.injEq, List.length_cons]
        and_intros <;> (first | trivial | (dsimp only; omega) | omega | simp)

theorem advLoop_seq_gt {α : Type} :
    ∀ (l : List α) (n : Nat) (s : Seq α) (sz : Nat) (m0 : Bool), s.Inv →
      s.view = l → l.length < n →
      advLoop (seqOps α) n s sz m0
        = (⟨s.idx + l.length + 1, s.data, s.size⟩, sz + l.length, false) := by
  intro l
  induction l with
  | nil =>
    intro n s sz m0 hInv hv hn
    match n with
    | k + 1 =>
      rw [advLoop]
      rw [show (seqOps α).next = Seq.next from rfl]
      rw [Seq.next_view_nil hInv hv]
      dsimp only
      simp only [Prod.mk.injEq, Seq.mk.injEq, List.length_cons]
      and_intros <;> (first | trivial | (dsimp only; omega) | omega | simp)
  | cons x t ih =>
    intro n s sz m0 hInv hv hn
    match n with
    | k + 1 =>
      rw [advLoop]
      rw [show (seqOps α).next = Seq.next from rfl]
      rw [Seq.next_view_cons hInv hv]
      dsimp only
      rw [ih k ⟨s.idx + 1, s.data, s.size⟩ (sz + 1) true
        (Seq.Inv_succ hInv) (Seq.view_succ_cons hInv hv)
        (by simp at hn; omega)]
      simp only [Prod.mk.injEq, Seq.mk.injEq, List.length_cons]
      and_intros <;> (first | trivial | (dsimp only; omega) | omega | simp)

theorem advanceBy_seq_le {α : Type} (n : Nat) (l : List α)
    (it : iter (Seq α)) (hInv : it.item.Inv) (hv : it.item.view = l)
    (h1 : 1 ≤ n) (hn : n ≤ l.length) :
    advanceBy (seqOps α) it n
      = (⟨⟨it.item.idx + n, it.item.data, it.item.size⟩, it.size + n⟩,
         it.size + n - 1, true) := by
  unfold advanceBy
  rw [advLoop_seq_le n l it.item it.size false hInv hv h1 hn]

theorem advanceBy_seq_gt {α : Type} (n : Nat) (l : List α)
    (it : iter (Seq α)) (hInv : it.item.Inv) (hv : it.item.view = l)
    (hn : l.length < n) :
    advanceBy (seqOps α) it n
      = (⟨⟨it.item.idx + l.length + 1, it.item.data, it.item.size⟩,
          it.size + l.length⟩, it.size + l.length - 1, false) := by
  unfold advanceBy
  rw [advLoop_seq_gt l n it.item it.size false hInv hv hn]

theorem countLoop_seq {α : Type} :
    ∀ (l : List α) (it : iter (Seq α)), it.item.Inv → it.item.view = l →
      countLoop (seqOps α) it
        = ⟨⟨it.item.idx + l.length + 1, it.item.data, it.item.size⟩,
           it.size + l.length⟩ := by
  intro l
  induction l with
  | nil =>
    intro it hInv hv
    rw [countLoop_of_false (advanceBy_seq_gt 1 [] it hInv hv (by simp))]
  | cons x t ih =>
    intro it hInv hv
    rw [countLoop_of_true
      (advanceBy_seq_le 1 (x :: t) it hInv hv (by omega) (by simp))]
    simp only [Nat.cast_one]
    rw [ih ⟨⟨it.item.idx + 1, it.item.data, it.item.size⟩, it.size + 1⟩
      (Seq.Inv_succ hInv) (Seq.view_succ_cons hInv hv)]
    simp only [iter.mk.injEq, Seq.mk.injEq, List.length_cons]
    and_intros <;> (first | trivial | (dsimp only; omega) | omega | simp)

theorem firstLoop_seq_nomatch {α : Type} (f : α → Bool) :
    ∀ (l : List α) (s : Seq α), s.Inv → s.view = l →
      (∀ a ∈ l, f a = false) →
      firstLoop (seqOps α) Seq.enumerate rfl f s
        = (⟨s.idx + l.length + 1, s.data, s.size⟩, (-1, none, false)) := by
  intro l
  induction l with
  | nil =>
    intro s hInv hv _
    rw [firstLoop_of_none (Seq.enum_view_nil hInv hv)]
    simp
  | cons x t ih =>
    intro s hInv hv hno
    rw [firstLoop_of_some (Seq.enum_view_cons hInv hv)]
    rw [hno x (List.mem_cons_self x t)]
    simp only [Bool.false_eq_true, if_neg, not_false_iff]
    rw [ih _ (Seq.Inv_succ hInv) (Seq.view_succ_cons hInv hv)
      (fun a ha => hno a (List.mem_cons_of_mem x ha))]
    simp only [Prod.mk.injEq, Seq.mk.injEq, List.length_cons]
    and_intros <;> (first | trivial | (dsimp only; omega) | omega | simp)

theorem firstLoop_seq_found {α : Type} (f : α → Bool) :
    ∀ (l : List α) (j : Nat) (b : Nat) (s : Seq α) (hj : j < l.length),
      s.Inv → s.idx = (b : Int) - 1 → s.view = l →
      (∀ (k : Nat) (hk : k < l.length), k < j → f (l.get ⟨k, hk⟩) = false) →
      f (l.get ⟨j, hj⟩) = true →
      firstLoop (seqOps α) Seq.enumerate rfl f s
        = (⟨s.idx + j + 1, s.data, s.size⟩,
           (((b + j : Nat) : Int), some (l.get ⟨j, hj⟩), true)) := by
  intro l
  induction l with
  | nil =>
    intro j b s hj
    simp at hj
  | cons x t ih =>
    intro j b s hj hInv hb hv hbefore hfj
    rw [firstLoop_of_some (Seq.enum_view_cons hInv hv)]
    match j with
    | 0 =>
      simp only [List.get] at hfj
      rw [hfj]
      simp only [if_pos]
      have hbn : (s.idx + 1).toNat = b := by omega
      rw [hbn]
      simp only [Prod.mk.injEq, Seq.mk.injEq, List.length_cons, List.get]
      and_intros <;> (first | trivial | (dsimp only; omega) | omega | simp)
    | m + 1 =>
      have hx : f x = false := by
        have := hbefore 0 (by simp) (by omega)
        simpa using this
      rw [hx]
      simp only [Bool.false_eq_true, if_neg, not_false_iff]
      have hb' : ({ s with idx := s.idx + 1 } : Seq α).idx
          = ((b + 1 : Nat) : Int) - 1 := by
        dsimp only
        omega
      have hbefore' : ∀ (k : Nat) (hk : k < t.length), k < m →
          f (t.get ⟨k, hk⟩) = false := by
        intro k hk hkm
        have := hbefore (k + 1) (by simpa using Nat.succ_lt_succ hk)
          (by omega)
        simpa using this
      rw [ih m (b + 1) _ (by simpa using Nat.lt_of_succ_lt_succ hj)
        (Seq.Inv_succ hInv) hb' (Seq.view_succ_cons hInv hv) hbefore'
        (by simpa using hfj)]
      simp only [Prod.mk.injEq, Seq.mk.injEq, List.length_cons, List.get]
      and_intros <;> (first | trivial | (dsimp only; omega) | omega | simp)

theorem lastLoop_seq_nomatch {α : Type} (f : α → Bool) :
    ∀ (l : List α) (s : Seq α) (acc : Int × Option α × Bool), s.Inv →
      s.view = l → (∀ a ∈ l, f a = false) →
      lastLoop (seqOps α) Seq.enumerate rfl f s acc
        = (⟨s.idx + l.length + 1, s.data, s.size⟩, acc) := by
  intro l
  induction l with
  | nil =>
    intro s acc hInv hv _
    rw [lastLoop_of_none (Seq.enum_view_nil hInv hv)]
    simp
  | cons x t ih =>
    intro s acc hInv hv hno
    rw [lastLoop_of_some (Seq.enum_view_cons hInv hv)]
    rw [hno x (List.mem_cons_self x t)]
    simp only [Bool.false_eq_true, if_neg, not_false_iff]
    rw [ih _ _ (Seq.Inv_succ hInv) (Seq.view_succ_cons hInv hv)
      (fun a ha => hno a (List.mem_cons_of_mem x ha))]
    simp only [Prod.mk.injEq, Seq.mk.injEq, List.length_cons]
    and_intros <;> (first | trivial | (dsimp only; omega) | omega | simp)

theorem lastLoop_seq_found {α : Type} (f : α → Bool) :
    ∀ (l : List α) (j : Nat) (b : Nat) (s : Seq α)
      (acc : Int × Option α × Bool) (hj : j < l.length),
      s.Inv → s.idx = (b : Int) - 1 → s.view = l →
      f (l.get ⟨j, hj⟩) = true →
      (∀ (k : Nat) (hk : k < l.length), j < k → f (l.get ⟨k, hk⟩) = false) →
      lastLoop (seqOps α) Seq.enumerate rfl f s acc
        = (⟨s.idx + l.length + 1, s.data, s.size⟩,
           (((b + j : Nat) : Int), some (l.get ⟨j, hj⟩), true)) := by
  intro l
  induction l with
  | nil =>
    intro j b s acc hj
    simp at hj
  | cons x t ih =>
    intro j b s acc hj hInv hb hv hfj hafter
    rw [lastLoop_of_some (Seq.enum_view_cons hInv hv)]
    match j with
    | 0 =>
      simp only [List.get] at hfj
      rw [hfj]
      simp only [if_pos]
      have hbn : (s.idx + 1).toNat = b := by omega
      rw [hbn]
      have hnot : ∀ a ∈ t, f a = false := by
        intro a ha
        obtain ⟨k, hak⟩ := List.mem_iff_get.mp ha
        subst hak
        have := hafter (k.1 + 1) (by simpa using Nat.succ_lt_succ k.2)
          (by omega)
        simp only [List.get_cons_succ] at this
        exact this
      rw [lastLoop_seq_nomatch f t _ _ (Seq.Inv_succ hInv)
        (Seq.view_succ_cons hInv hv) hnot]
      simp only [Prod.mk.injEq, Seq.mk.injEq, List.length_cons, List.get]
      and_intros <;> (first | trivial | (dsimp only; omega) | omega | simp)
    | m + 1 =>
      have hb' : ({ s with idx := s.idx + 1 } : Seq α).idx
          = ((b + 1 : Nat) : Int) - 1 := by
        dsimp only
        omega
      have hafter' : ∀ (k : Nat) (hk : k < t.length), m < k →
          f (t.get ⟨k, hk⟩) = false := by
        intro k hk hkm
        have := hafter (k + 1) (by simpa using Nat.succ_lt_succ hk)
          (by omega)
        simpa using this
      rw [ih m (b + 1) _ _ (by simpa using Nat.lt_of_succ_lt_succ hj)
        (Seq.Inv_succ hInv) hb' (Seq.view_succ_cons hInv hv)
        (by simpa using hfj) hafter']
      simp only [Prod.mk.injEq, Seq.mk.injEq, List.length_cons, List.get]
      and_intros <;> (first | trivial | (dsimp only; omega) | omega | simp)

theorem zipLoop_seq {α β : Type} :
    ∀ (lA : List α) (lB : List β) (sA : Seq α) (sB : Seq β)
      (np : Seq (Pair α β)), sA.Inv → sB.Inv → sA.view = lA →
      sB.view = lB →
      zipLoop (seqOps α) (seqOps β) sA sB np
        = (⟨sA.idx + min lA.length lB.length + 1, sA.data, sA.size⟩,
           ⟨sB.idx + min lA.length lB.length + 1, sB.data, sB.size⟩,
           ⟨np.idx, np.data ++ List.zipWith Pair.mk lA lB,
            np.size + min lA.length lB.length⟩) := by
  intro lA
  induction lA with
  | nil =>
    intro lB sA sB np hIA hIB hvA hvB
    rw [zipLoop_of_none (Seq.next_view_nil hIA hvA)]
    simp only [seqOps_next, Seq.next_fst]
    simp only [Prod.mk.injEq, Seq.mk.injEq, List.length_nil, Nat.zero_min,
      List.zipWith_nil_left, List.append_nil]
    and_intros <;> (first | trivial | (dsimp only; omega) | omega | simp)
  | cons a tA ih =>
    intro lB sA sB np hIA hIB hvA hvB
    match lB with
    | [] =>
      rw [zipLoop_of_some_none (Seq.next_view_cons hIA hvA)
        (Seq.next_view_nil hIB hvB)]
      simp only [Prod.mk.injEq, Seq.mk.injEq, List.length_nil, Nat.min_zero,
        List.zipWith_nil_right, List.append_nil, List.length_cons]
      and_intros <;> (first | trivial | (dsimp only; omega) | omega | simp)
    | b :: tB =>
      rw [zipLoop_of_some_some (Seq.next_view_cons hIA hvA)
        (Seq.next_view_cons hIB hvB)]
      rw [ih tB _ _ _ (Seq.Inv_succ hIA) (Seq.Inv_succ hIB)
        (Seq.view_succ_cons hIA hvA) (Seq.view_succ_cons hIB hvB)]
      simp only [Seq.Add, Prod.mk.injEq, Seq.mk.injEq, List.length_cons,
        List.zipWith_cons_cons]
      and_intros <;> (first | trivial | (dsimp only; omega) | omega | simp)

theorem convertLoop_seq_dest {σ₁ α₁ α₂ : Type} (S : IterableOps σ₁ α₁)
    (as_ : α₁ → Option α₂) (t : σ₁) (d : Seq α₂) :
    (convertLoop S Seq.Add as_ t d).2
      = ⟨d.idx, d.data ++ (drain S t).filterMap as_,
         d.size + ((drain S t).filterMap as_).length⟩ := by
  induction t, d using convertLoop.induct S Seq.Add as_ with
  | case1 s d s' hnone =>
    rw [convertLoop_of_none hnone, drain_of_none hnone]
    simp
  | case2 s d s' elm hsome ih =>
    rw [convertLoop_of_some hsome, drain_of_some hsome]
    rcases he : as_ elm with _ | y
    · simp only [he] at ih
      rw [ih]
      simp only [List.filterMap_cons, he]
    · simp only [he] at ih
      rw [ih]
      simp only [List.filterMap_cons, he, Seq.Add, Seq.mk.injEq]
      and_intros
      all_goals try trivial
      all_goals try (simp only [List.length_cons]; omega)
      all_goals simp

theorem filter_eq {σ α : Type} (I : IterableOps σ α) (f : α → Bool)
    (it : iter σ) :
    filter I f it
      = (⟨(filterLoop I f it.item I.new).1, it.size⟩,
         newIter (filterLoop I f it.item I.new).2) := rfl

theorem apply_eq {σ α : Type} (I : IterableOps σ α) (f : α → α)
    (it : iter σ) :
    apply I f it
      = (⟨(applyLoop I f it.item I.new).1, it.size⟩,
         newIter (applyLoop I f it.item I.new).2) := rfl

theorem or_eq {σ α : Type} (I : IterableOps σ α) (f : α → Bool) (dflt : α)
    (it : iter σ) :
    or I f dflt it
      = (⟨(orLoop I f dflt it.item I.new).1, it.size⟩,
         newIter (orLoop I f dflt it.item I.new).2) := rfl

theorem every_seq_eq {α : Type} (f : Nat → α → α) (it : iter (Seq α)) :
    every (seqOps α) f it
      = some
          (⟨(everyLoop (seqOps α) Seq.enumerate rfl f it.item
              (Seq.New α)).1, it.size⟩,
           newIter (everyLoop (seqOps α) Seq.enumerate rfl f it.item
              (Seq.New α)).2) := rfl

theorem first_seq_eq {α : Type} (f : α → Bool) (it : iter (Seq α)) :
    first (seqOps α) f it
      = some
          (⟨(firstLoop (seqOps α) Seq.enumerate rfl f it.item).1, it.size⟩,
           (firstLoop (seqOps α) Seq.enumerate rfl f it.item).2) := rfl

theorem last_seq_eq {α : Type} (f : α → Bool) (it : iter (Seq α)) :
    last (seqOps α) f it
      = some
          (⟨(lastLoop (seqOps α) Seq.enumerate rfl f it.item
              (-1, none, false)).1, it.size⟩,
           (lastLoop (seqOps α) Seq.enumerate rfl f it.item
              (-1, none, false)).2) := rfl

theorem into_seq_eq {σ α β : Type} (I : IterableOps σ α)
    (as_ : α → Option β) (it : iter σ) (target : Seq β) :
    into I (seqOps β) as_ it target
      = (⟨(convertLoop I Seq.Add as_ it.item (Seq.Reset target)).1, it.size⟩,
         newIter (convertLoop I Seq.Add as_ it.item (Seq.Reset target)).2)
    := rfl

theorem fromIt_seq_eq {α τ β : Type} (J : IterableOps τ β)
    (as_ : β → Option α) (it : iter (Seq α)) (other : τ) :
    fromIt (seqOps α) J as_ it other
      = (⟨(convertLoop J Seq.Add as_ other (Seq.Reset it.item)).2, it.size⟩,
         (convertLoop J Seq.Add as_ other (Seq.Reset it.item)).1,
         ⟨(convertLoop J Seq.Add as_ other (Seq.Reset it.item)).2, it.size⟩)
    := rfl

theorem count_seq_eq {α : Type} (it : iter (Seq α)) :
    count (seqOps α) it
      = (⟨Seq.Rewind (countLoop (seqOps α) it).item, 0⟩,
         (countLoop (seqOps α) it).size) := rfl

theorem zip_eq {σ α τ β : Type} (I : IterableOps σ α) (J : IterableOps τ β)
    (it : iter σ) (other : τ) :
    zip I J it other
      = (⟨(zipLoop I J it.item other (newPairs α β)).1, it.size⟩,
         (zipLoop I J it.item other (newPairs α β)).2.1,
         newIter (zipLoop I J it.item other (newPairs α β)).2.2) := rfl

theorem nth_seq_eq {α : Type} (it : Iter (Seq α)) (n : Nat) :
    Iter.Nth (seqOps α) it n
      = (⟨⟨Seq.Rewind (((advanceBy (seqOps α) it.impl n).1.item.next).1),
           (advanceBy (seqOps α) it.impl n).1.size⟩⟩,
         ((advanceBy (seqOps α) it.impl n).1.item.next).2) := rfl

theorem convertLoop_seq_src {α σ₂ α₂ : Type} (addD : σ₂ → α₂ → σ₂)
    (as_ : α → Option α₂) :
    ∀ (l : List α) (s : Seq α) (d : σ₂), s.Inv → s.view = l →
      (convertLoop (seqOps α) addD as_ s d).1
        = ⟨s.idx + l.length + 1, s.data, s.size⟩ := by
  intro l
  induction l with
  | nil =>
    intro s d hInv hv
    rw [convertLoop_of_none (Seq.next_view_nil hInv hv)]
    simp
  | cons x t ih =>
    intro s d hInv hv
    rw [convertLoop_of_some (Seq.next_view_cons hInv hv)]
    rw [ih _ _ (Seq.Inv_succ hInv) (Seq.view_succ_cons hInv hv)]
    simp only [Seq.mk.injEq, List.length_cons]
    and_intros <;> (first | trivial | (dsimp only; omega) | omega | simp)

/-- Claim C6: invoking `every`, `first` or `last` on a sequence that lacks
the `Enumerable` capability fails with the unrecoverable panic of the Go type
assertion `it.item.(Enumerator)` (modeled as `none`) and never returns a
normal (`some`) result. -/
theorem C6_capability_violation {σ α : Type} (I : IterableOps σ α)
    (f : Nat → α → α) (g : α → Bool) (it : iter σ)
    (h : I.enumerate? = none) :
    every I f it = none ∧ first I g it = none ∧ last I g it = none := by
  refine ⟨?_, ?_, ?_⟩
  · rw [every.eq_def]
    split
    · rfl
    · next e he =>
      rw [h] at he
      simp at he
  · rw [first.eq_def]
    split
    · rfl
    · next e he =>
      rw [h] at he
      simp at he
  · rw [last.eq_def]
    split
    · rfl
    · next e he =>
      rw [h] at he
      simp at he

theorem C6_capability_violation_witness :
    every (plainOps Nat) (fun _ a => a) (newIter [1]) = none
    ∧ first (plainOps Nat) (fun _ => true) (newIter [1]) = none
    ∧ last (plainOps Nat) (fun _ => true) (newIter [1]) = none :=
  C6_capability_violation (plainOps Nat) (fun _ a => a) (fun _ => true)
    (newIter [1]) rfl

/-- Claim C2: in `into` (and symmetrically in `from`), an element on which
the converter fails (returns a non-nil error, modeled `none`) is silently
skipped — not appended, no error surfaced (both functions return normally) —
and every element on which it succeeds is appended in order, so the (reset)
destination holds exactly the successfully converted elements: its backing
list is precisely `List.filterMap` of the converter over the elements drained
from the source. -/
theorem C2_conversion_failure_skips {σ α τ β γ : Type}
    (I : IterableOps σ α) (J : IterableOps τ β)
    (as1 : α → Option γ) (as2 : β → Option α)
    (it : iter σ) (target : Seq γ) (self : iter (Seq α)) (other : τ) :
    ((into I (seqOps γ) as1 it target).2.item.data
        = (drain I it.item).filterMap as1)
    ∧ ((fromIt (seqOps α) J as2 self other).2.2.item.data
        = (drain J other).filterMap as2) := by
  constructor
  · rw [into_seq_eq]
    dsimp only [newIter]
    rw [convertLoop_seq_dest]
    simp [Seq.Reset]
  · rw [fromIt_seq_eq]
    dsimp only
    rw [convertLoop_seq_dest]
    simp [Seq.Reset]

/-- Claim C1: `zip(A, B)` on two freshly constructed sequences produces the
`pairs` container whose backing list is `zipWith Pair.mk A B`: its size (both
the list length and the `size` field of the container) is `min (size A) (size B)`,
and the `i`-th element is `Pair (A i) (B i)` exactly when `i` is below both
lengths (so zip stops at the first exhausted source and does not require
equal lengths). -/
theorem C1_zip_spec {α β : Type} (A : List α) (B : List β) (sz : Nat) :
    ((zip (seqOps α) (seqOps β) ⟨Seq.fromList A, sz⟩
        (Seq.fromList B)).2.2.item.data = List.zipWith Pair.mk A B)
    ∧ ((zip (seqOps α) (seqOps β) ⟨Seq.fromList A, sz⟩
        (Seq.fromList B)).2.2.item.data.length = min A.length B.length)
    ∧ ((zip (seqOps α) (seqOps β) ⟨Seq.fromList A, sz⟩
        (Seq.fromList B)).2.2.item.size = min A.length B.length)
    ∧ ∀ (i : Nat),
        (zip (seqOps α) (seqOps β) ⟨Seq.fromList A, sz⟩
          (Seq.fromList B)).2.2.item.data[i]?
          = match A[i]?, B[i]? with
            | some a, some b => some (Pair.mk a b)
            | _, _ => none := by
  have hz := zipLoop_seq A B (Seq.fromList A) (Seq.fromList B)
    (newPairs α β) (Seq.fromList_Inv A) (Seq.fromList_Inv B)
    (Seq.fromList_view A) (Seq.fromList_view B)
  rw [zip_eq]
  rw [show (⟨Seq.fromList A, sz⟩ : iter (Seq α)).item = Seq.fromList A
    from rfl]
  rw [hz]
  dsimp only [newPairs, newIter]
  refine ⟨by simp, by simp [List.length_zipWith], by simp, ?_⟩
  intro i
  simp only [List.nil_append]
  rw [List.getElem?_zipWith]
  rfl

/-- Claim C10: when the lengths differ, `zip` leaves the cursor of the
longer source at `min (size A) (size B)`: both `Next` calls of the break iteration
have already happened, so the longer source has yielded `min + 1` elements —
the cursor sits one position past the last paired element and the extra
element is discarded. -/
theorem C10_zip_overconsumes {α β : Type} (A : List α) (B : List β)
    (hne : A.length ≠ B.length) :
    (A.length < B.length →
      (zip (seqOps α) (seqOps β) ⟨Seq.fromList A, 0⟩
        (Seq.fromList B)).2.1.idx = (A.length : Int))
    ∧ (B.length < A.length →
      (zip (seqOps α) (seqOps β) ⟨Seq.fromList A, 0⟩
        (Seq.fromList B)).1.item.idx = (B.length : Int)) := by
  have hz := zipLoop_seq A B (Seq.fromList A) (Seq.fromList B)
    (newPairs α β) (Seq.fromList_Inv A) (Seq.fromList_Inv B)
    (Seq.fromList_view A) (Seq.fromList_view B)
  rw [zip_eq]
  rw [show (⟨Seq.fromList A, 0⟩ : iter (Seq α)).item = Seq.fromList A
    from rfl]
  rw [hz]
  constructor
  · intro hlt
    have hmin : min A.length B.length = A.length := by omega
    dsimp only [Seq.fromList]
    rw [hmin]
    omega
  · intro hlt
    have hmin : min A.length B.length = B.length := by omega
    dsimp only [Seq.fromList]
    rw [hmin]
    omega

theorem C10_zip_overconsumes_witness :
    (zip (seqOps String) (seqOps Nat) ⟨Seq.fromList ["a"], 0⟩
      (Seq.fromList [10, 20])).2.1.idx = ((1 : Nat) : Int) :=
  (C10_zip_overconsumes ["a"] [10, 20] (by decide)).1 (by decide)

/-- Claim C3 counterexample: on the one-element sequence `["a"]`,
`advanceBy(1)` returns `(0, true)` although the sequence is exhausted
afterwards (the very next `Next` yields nothing), so the returned boolean is
not `true iff the sequence could still produce more elements afterward`. -/
theorem C3_counterexample :
    ((advanceBy (seqOps String) ⟨Seq.fromList ["a"], 0⟩ 1).2 = (0, true))
    ∧ (((advanceBy (seqOps String) ⟨Seq.fromList ["a"], 0⟩ 1).1.item.next).2
        = none) := by decide

/-- Claim C3 (amended): on a fresh iterator over `A`, `advanceBy n`
(`n ≥ 1`) advances up to `n` times or until exhausted, whichever comes first,
returning the zero-based index of the last visited element (`0` if none was
visited, via the `Nat` clamp) and a boolean that is true iff all `n`
requested advances yielded an element (`n ≤ size A`) — the boolean reports
the success of the last advance, not whether further elements remain.  In
particular on an empty sequence it returns `(0, false)` for every `n ≥ 1`. -/
theorem C3_advanceBy_spec {α : Type} (A : List α) (n : Nat) (h1 : 1 ≤ n) :
    (advanceBy (seqOps α) ⟨Seq.fromList A, 0⟩ n).2
      = (min n A.length - 1, decide (n ≤ A.length)) := by
  by_cases hle : n ≤ A.length
  · rw [advanceBy_seq_le n A ⟨Seq.fromList A, 0⟩ (Seq.fromList_Inv A)
      (Seq.fromList_view A) h1 hle]
    simp only [decide_eq_true hle]
    rw [Prod.mk.injEq]
    constructor
    · omega
    · rfl
  · rw [advanceBy_seq_gt n A ⟨Seq.fromList A, 0⟩ (Seq.fromList_Inv A)
      (Seq.fromList_view A) (by omega)]
    dsimp only
    rw [Prod.mk.injEq]
    constructor
    · omega
    · simp
      omega

theorem C3_advanceBy_spec_witness :
    ((advanceBy (seqOps String) ⟨Seq.fromList ["a", "b", "c"], 0⟩ 2).2
        = (min 2 3 - 1, decide (2 ≤ 3)))
    ∧ ((advanceBy (seqOps String) ⟨Seq.fromList ([] : List String), 0⟩ 1).2
        = (min 1 0 - 1, decide (1 ≤ 0))) :=
  ⟨C3_advanceBy_spec ["a", "b", "c"] 2 (by decide),
   C3_advanceBy_spec [] 1 (by decide)⟩

/-- Claim C5: on a fresh `Enumerable` sequence, `first` returns the
`(index, element, true)` of the earliest element satisfying the predicate and
stops immediately there (final cursor = the match position), while `last`
scans the entire sequence (final cursor = size) and returns the latest match;
when no element matches (in particular on an empty sequence) both return
index `-1`, no element, and `found = false`. -/
theorem C5_first_last {α : Type} (A : List α) (f : α → Bool) :
    (∀ (j : Nat) (hj : j < A.length),
        f (A.get ⟨j, hj⟩) = true →
        (∀ (k : Nat) (hk : k < A.length), k < j →
          f (A.get ⟨k, hk⟩) = false) →
        first (seqOps α) f ⟨Seq.fromList A, 0⟩
          = some (⟨⟨(j : Int), A, A.length⟩, 0⟩,
              ((j : Int), some (A.get ⟨j, hj⟩), true)))
    ∧ ((∀ a ∈ A, f a = false) →
        first (seqOps α) f ⟨Seq.fromList A, 0⟩
          = some (⟨⟨(A.length : Int), A, A.length⟩, 0⟩, (-1, none, false)))
    ∧ (∀ (j : Nat) (hj : j < A.length),
        f (A.get ⟨j, hj⟩) = true →
        (∀ (k : Nat) (hk : k < A.length), j < k →
          f (A.get ⟨k, hk⟩) = false) →
        last (seqOps α) f ⟨Seq.fromList A, 0⟩
          = some (⟨⟨(A.length : Int), A, A.length⟩, 0⟩,
              ((j : Int), some (A.get ⟨j, hj⟩), true)))
    ∧ ((∀ a ∈ A, f a = false) →
        last (seqOps α) f ⟨Seq.fromList A, 0⟩
          = some (⟨⟨(A.length : Int), A, A.length⟩, 0⟩,
              (-1, none, false))) := by
  have hb0 : (Seq.fromList A).idx = ((0 : Nat) : Int) - 1 := by
    simp [Seq.fromList]
  refine ⟨?_, ?_, ?_, ?_⟩
  · intro j hj hfj hbefore
    rw [first_seq_eq]
    rw [show (⟨Seq.fromList A, 0⟩ : iter (Seq α)).item = Seq.fromList A
      from rfl]
    rw [firstLoop_seq_found f A j 0 (Seq.fromList A) hj (Seq.fromList_Inv A)
      hb0 (Seq.fromList_view A) hbefore hfj]
    simp only [Option.some.injEq, Prod.mk.injEq, iter.mk.injEq, Seq.mk.injEq,
      Seq.fromList, Nat.zero_add]
    and_intros
    all_goals try trivial
    all_goals omega
  · intro hno
    rw [first_seq_eq]
    rw [show (⟨Seq.fromList A, 0⟩ : iter (Seq α)).item = Seq.fromList A
      from rfl]
    rw [firstLoop_seq_nomatch f A (Seq.fromList A) (Seq.fromList_Inv A)
      (Seq.fromList_view A) hno]
    simp only [Option.some.injEq, Prod.mk.injEq, iter.mk.injEq, Seq.mk.injEq,
      Seq.fromList]
    and_intros
    all_goals try trivial
    all_goals omega
  · intro j hj hfj hafter
    rw [last_seq_eq]
    rw [show (⟨Seq.fromList A, 0⟩ : iter (Seq α)).item = Seq.fromList A
      from rfl]
    rw [lastLoop_seq_found f A j 0 (Seq.fromList A) (-1, none, false) hj
      (Seq.fromList_Inv A) hb0 (Seq.fromList_view A) hfj hafter]
    simp only [Option.some.injEq, Prod.mk.injEq, iter.mk.injEq, Seq.mk.injEq,
      Seq.fromList, Nat.zero_add]
    and_intros
    all_goals try trivial
    all_goals omega
  · intro hno
    rw [last_seq_eq]
    rw [show (⟨Seq.fromList A, 0⟩ : iter (Seq α)).item = Seq.fromList A
      from rfl]
    rw [lastLoop_seq_nomatch f A (Seq.fromList A) (-1, none, false)
      (Seq.fromList_Inv A) (Seq.fromList_view A) hno]
    simp only [Option.some.injEq, Prod.mk.injEq, iter.mk.injEq, Seq.mk.injEq,
      Seq.fromList]
    and_intros
    all_goals try trivial
    all_goals omega

theorem C5_first_last_witness :
    (first (seqOps String) (fun v => (v == "1") || (v == "2"))
        ⟨Seq.fromList ["a", "1", "b", "2"], 0⟩
      = some (⟨⟨(1 : Int), ["a", "1", "b", "2"], 4⟩, 0⟩,
          ((1 : Int), some "1", true)))
    ∧ (last (seqOps String) (fun v => (v == "1") || (v == "2"))
        ⟨Seq.fromList ["a", "1", "b", "2"], 0⟩
      = some (⟨⟨(4 : Int), ["a", "1", "b", "2"], 4⟩, 0⟩,
          ((3 : Int), some "2", true))) := by
  constructor
  · exact (C5_first_last ["a", "1", "b", "2"]
      (fun v => (v == "1") || (v == "2"))).1 1 (by decide) (by decide)
      (by decide)
  · exact (C5_first_last ["a", "1", "b", "2"]
      (fun v => (v == "1") || (v == "2"))).2.2.1 3 (by decide) (by decide)
      (by decide)

theorem IterCount_eq {σ α : Type} (I : IterableOps σ α) (it : Iter σ) :
    Iter.Count I it = (⟨(count I it.impl).1⟩, (count I it.impl).2) := rfl

/-- Claim C7 (code bug): the documented contract of `Count` ("Count returns the size of
the Iterable"; calling it twice yields the same value, per its doc example
and `TestCount/multi`) is broken by the leftover step counter that `Nth`
leaves behind: on the Facade over `["a", "b"]`, after the read-only call
`Nth(1)` (which advances `impl.size` to 1 and rewinds without resetting it),
the first `Count` returns 3 and the second returns 2. -/
theorem C7_count_after_nth_bug :
    ((Iter.Count (seqOps String)
        (Iter.Nth (seqOps String) (New (FromStrings ["a", "b"])) 1).1).2 = 3)
    ∧ ((Iter.Count (seqOps String)
        (Iter.Count (seqOps String)
          (Iter.Nth (seqOps String)
            (New (FromStrings ["a", "b"])) 1).1).1).2 = 2)
    ∧ ((3 : Nat) ≠ 2) := by
  have hn : (Iter.Nth (seqOps String) (New (FromStrings ["a", "b"])) 1).1
      = ⟨⟨⟨-1, ["a", "b"], 2⟩, 1⟩⟩ := by decide
  have hc1 : Iter.Count (seqOps String) ⟨⟨⟨-1, ["a", "b"], 2⟩, 1⟩⟩
      = (⟨⟨⟨-1, ["a", "b"], 2⟩, 0⟩⟩, 3) := by
    rw [IterCount_eq, count_seq_eq]
    rw [countLoop_seq ["a", "b"] ⟨⟨-1, ["a", "b"], 2⟩, 1⟩ (by decide)
      (by decide)]
    decide
  have hc2 : Iter.Count (seqOps String) ⟨⟨⟨-1, ["a", "b"], 2⟩, 0⟩⟩
      = (⟨⟨⟨-1, ["a", "b"], 2⟩, 0⟩⟩, 2) := by
    rw [IterCount_eq, count_seq_eq]
    rw [countLoop_seq ["a", "b"] ⟨⟨-1, ["a", "b"], 2⟩, 0⟩ (by decide)
      (by decide)]
    decide
  rw [hn, hc1]
  refine ⟨rfl, ?_, by decide⟩
  rw [show ((⟨⟨⟨-1, ["a", "b"], 2⟩, 0⟩⟩, 3) :
      Iter (Seq String) × Nat).1 = ⟨⟨⟨-1, ["a", "b"], 2⟩, 0⟩⟩ from rfl]
  rw [hc2]

theorem Seq.Inv_rewind {α : Type} {t : Seq α} (h : t.Inv) :
    (t.Rewind).Inv := ⟨h.1, by simp [Seq.Rewind]⟩

theorem Seq.view_rewind {α : Type} (t : Seq α) :
    (t.Rewind).view = t.data := by
  simp [Seq.Rewind, Seq.view]

theorem Seq.afterN_props {α : Type} (t : Seq α) (hI : t.Inv)
    (hv : t.view = []) :
    ∀ k, (t.afterN k).Inv ∧ (t.afterN k).view = []
      ∧ (t.afterN k).data = t.data ∧ (t.afterN k).size = t.size := by
  intro k
  induction k with
  | zero => exact ⟨hI, hv, rfl, rfl⟩
  | succ m ihm =>
    obtain ⟨h1, h2, h3, h4⟩ := ihm
    have hnext := Seq.next_view_nil h1 h2
    rw [Seq.afterN, hnext]
    exact ⟨Seq.Inv_succ h1, Seq.view_succ_nil h1 h2, h3, h4⟩

/-- Claim C9: once `IterStrings.Next` has reported exhaustion, every later
`Next` call still returns `(nil, false)` — the cursor keeps moving past the
size but the guard `idx < size` fails, so no element is re-yielded and the
backing array is never read (no panic, no out-of-bounds) — the backing data
is untouched, and a later `Rewind` restores traversal to the start: draining
the rewound container yields the full backing list again. -/
theorem C9_iterstrings_exhaustion (s s1 : Seq String) (hInv : s.Inv)
    (h : s.next = (s1, none)) (k : Nat) :
    (((s1.afterN k).next).2 = none)
    ∧ ((s1.afterN k).data = s.data)
    ∧ (drain (seqOps String) ((s1.afterN k).Rewind) = s.data) := by
  have hv : s.view = [] := by
    rcases hvc : s.view with _ | ⟨x, l⟩
    · rfl
    · have hc := Seq.next_view_cons hInv hvc
      rw [h] at hc
      simp at hc
  have hs1 : s1 = { s with idx := s.idx + 1 } := by
    have hn := Seq.next_view_nil hInv hv
    rw [h] at hn
    obtain ⟨h1, _⟩ := Prod.mk.injEq .. ▸ hn
    exact h1
  subst hs1
  obtain ⟨p1, p2, p3, p4⟩ :=
    Seq.afterN_props _ (Seq.Inv_succ hInv) (Seq.view_succ_nil hInv hv) k
  refine ⟨?_, ?_, ?_⟩
  · rw [Seq.next_view_nil p1 p2]
  · exact p3
  · rw [drain_seq (({ s with idx := s.idx + 1 } : Seq String).afterN k).Rewind.data
      _ (Seq.Inv_rewind p1) (Seq.view_rewind _)]
    exact p3

theorem C9_iterstrings_exhaustion_witness :
    ((((⟨3, ["a", "b", "c"], 3⟩ : Seq String).afterN 2).next).2 = none)
    ∧ (((⟨3, ["a", "b", "c"], 3⟩ : Seq String).afterN 2).data
        = ["a", "b", "c"])
    ∧ (drain (seqOps String)
        (((⟨3, ["a", "b", "c"], 3⟩ : Seq String).afterN 2).Rewind)
        = ["a", "b", "c"]) :=
  C9_iterstrings_exhaustion ⟨2, ["a", "b", "c"], 3⟩ ⟨3, ["a", "b", "c"], 3⟩
    (by decide) (by decide) 2

theorem IterFilter_eq {σ α : Type} (I : IterableOps σ α) (f : α → Bool)
    (it : Iter σ) :
    Iter.Filter I f it
      = (⟨(filter I f it.impl).1⟩, ⟨(filter I f it.impl).2⟩) := rfl

theorem IterMap_eq {σ α : Type} (I : IterableOps σ α) (f : α → α)
    (it : Iter σ) :
    Iter.Map I f it = (⟨(apply I f it.impl).1⟩, ⟨(apply I f it.impl).2⟩) :=
  rfl

theorem IterOr_eq {σ α : Type} (I : IterableOps σ α) (f : α → Bool)
    (dflt : α) (it : Iter σ) :
    Iter.Or I f dflt it
      = (⟨(or I f dflt it.impl).1⟩, ⟨(or I f dflt it.impl).2⟩) := rfl

theorem IterInto_eq {σ α τ β : Type} (I : IterableOps σ α)
    (J : IterableOps τ β) (as_ : α → Option β) (it : Iter σ) (target : τ) :
    Iter.Into I J as_ it target
      = (⟨(into I J as_ it.impl target).1⟩,
         ⟨(into I J as_ it.impl target).2⟩) := rfl

theorem IterFrom_eq {σ α τ β : Type} (I : IterableOps σ α)
    (J : IterableOps τ β) (as_ : β → Option α) (it : Iter σ) (other : τ) :
    Iter.From I J as_ it other
      = (⟨(fromIt I J as_ it.impl other).1⟩,
         (fromIt I J as_ it.impl other).2.1,
         ⟨(fromIt I J as_ it.impl other).2.2⟩) := rfl

/-- Claim C4 counterexample: a Facade over the Resettable `IterStrings`
holding `["x"]`, after `From` over the int sequence `[1]` with an
int-to-string converter, no longer holds `["x"]`: `from` reset the
backing sequence of the receiver in place and refilled it with the converted elements. -/
theorem C4_counterexample :
    (Iter.From (seqOps String) (seqOps Int) (fun v => some (toString v))
        ⟨⟨⟨-1, ["x"], 1⟩, 0⟩⟩ (Seq.fromList [1])).1.impl.item.data
      ≠ ["x"] := by
  rw [IterFrom_eq, fromIt_seq_eq]
  dsimp only
  rw [convertLoop_seq_dest]
  rw [drain_seq [1] (Seq.fromList [1]) (Seq.fromList_Inv [1])
    (Seq.fromList_view [1])]
  decide

/-- Claim C4 (amended): every mutating combinator call returns a new Facade
wrapping a freshly produced result; all combinators except `from` leave the
backing data of the receiver unchanged (they only advance its cursor
while draining), but `from` on a Resettable backing sequence resets that
backing sequence in place and reuses it as the destination, so afterwards it
holds the converted elements of the other sequence, not its prior data. -/
theorem C4_facade_frame {α β : Type} (s : Seq α) (sz : Nat) (f : α → Bool)
    (g : α → α) (ef : Nat → α → α) (dflt : α) (cv : α → Option β)
    (cv2 : β → Option α) (t : Seq β) (hs : s.Inv) (ht : t.Inv) :
    ((Iter.Filter (seqOps α) f ⟨⟨s, sz⟩⟩).1.impl.item.data = s.data)
    ∧ ((Iter.Map (seqOps α) g ⟨⟨s, sz⟩⟩).1.impl.item.data = s.data)
    ∧ ((Iter.Or (seqOps α) f dflt ⟨⟨s, sz⟩⟩).1.impl.item.data = s.data)
    ∧ ((Iter.Every (seqOps α) ef ⟨⟨s, sz⟩⟩).map
        (fun p => p.1.impl.item.data) = some s.data)
    ∧ ((Iter.Into (seqOps α) (seqOps β) cv ⟨⟨s, sz⟩⟩ t).1.impl.item.data
        = s.data)
    ∧ ((zip (seqOps α) (seqOps β) ⟨s, sz⟩ t).1.item.data = s.data)
    ∧ ((Iter.From (seqOps α) (seqOps β) cv2 ⟨⟨s, sz⟩⟩ t).1.impl.item.data
        = t.view.filterMap cv2) := by
  have hb : s.idx = (((s.idx + 1).toNat : Nat) : Int) - 1 := by
    have := hs.2
    omega
  refine ⟨?_, ?_, ?_, ?_, ?_, ?_, ?_⟩
  · rw [IterFilter_eq, filter_eq]
    dsimp only
    rw [filterLoop_seq f s.view s ((seqOps α).new) hs rfl]
  · rw [IterMap_eq, apply_eq]
    dsimp only
    rw [applyLoop_seq g s.view s ((seqOps α).new) hs rfl]
  · rw [IterOr_eq, or_eq]
    dsimp only
    rw [orLoop_seq f dflt s.view s ((seqOps α).new) hs rfl]
  · rw [show Iter.Every (seqOps α) ef ⟨⟨s, sz⟩⟩
        = (every (seqOps α) ef ⟨s, sz⟩).map (fun p => (⟨p.1⟩, ⟨p.2⟩))
      from rfl]
    rw [every_seq_eq]
    dsimp only [Option.map_some]
    rw [everyLoop_seq ef s.view ((s.idx + 1).toNat) s (Seq.New α) hs hb rfl]
    simp
  · rw [IterInto_eq, into_seq_eq]
    dsimp only
    rw [convertLoop_seq_src Seq.Add cv s.view s (Seq.Reset t) hs rfl]
  · rw [zip_eq]
    dsimp only
    rw [zipLoop_seq s.view t.view s t (newPairs α β) hs ht rfl rfl]
  · rw [IterFrom_eq, fromIt_seq_eq]
    dsimp only
    rw [convertLoop_seq_dest]
    rw [drain_seq t.view t ht rfl]
    simp [Seq.Reset]

theorem C4_facade_frame_witness :
    (Iter.Filter (seqOps String) (fun _ => true)
        ⟨⟨⟨-1, ["x"], 1⟩, 0⟩⟩).1.impl.item.data = ["x"] :=
  (C4_facade_frame ⟨-1, ["x"], 1⟩ 0 (fun _ => true) id (fun _ v => v) "d"
    (fun v => some [v]) (fun _ => some "y") (⟨-1, [], 0⟩ : Seq (List String))
    (by decide) (by decide)).1

/-- Claim C8: the test scenario of `TestIterString`.  Starting from
`["abc", "bbc", "abccd", "abcdd"]`, the chain
`Filter(has prefix "ab")`, `Or(element != "abcdd", "abcde")`,
`Map(append " starts from \x27ab\x27")`,
`Every(prefix the element with "index: ")` yields exactly
`["0: abc starts from \x27ab\x27", "1: abccd starts from \x27ab\x27",
"2: abcde starts from \x27ab\x27"]`, and `Nth 2` on that result yields the
third of those strings.  (`strings.HasPrefix` is modeled as the prefix test
on the character lists; `fmt.Sprintf` formatting as `toString`/append.) -/
theorem C8_scenario :
    ((Iter.Every (seqOps String) (fun i v => toString i ++ ": " ++ v)
        ((Iter.Map (seqOps String)
          (fun v => v ++ " starts from \x27ab\x27")
          ((Iter.Or (seqOps String) (fun v => v != "abcdd") "abcde"
            ((Iter.Filter (seqOps String)
              (fun v => "ab".data.isPrefixOf v.data)
              (New (FromStrings
                ["abc", "bbc", "abccd", "abcdd"]))).2)).2)).2)).map
        (fun p => p.2.impl.item.data)
      = some ["0: abc starts from \x27ab\x27",
              "1: abccd starts from \x27ab\x27",
              "2: abcde starts from \x27ab\x27"])
    ∧ ((Iter.Every (seqOps String) (fun i v => toString i ++ ": " ++ v)
        ((Iter.Map (seqOps String)
          (fun v => v ++ " starts from \x27ab\x27")
          ((Iter.Or (seqOps String) (fun v => v != "abcdd") "abcde"
            ((Iter.Filter (seqOps String)
              (fun v => "ab".data.isPrefixOf v.data)
              (New (FromStrings
                ["abc", "bbc", "abccd", "abcdd"]))).2)).2)).2)).map
        (fun p => (Iter.Nth (seqOps String) p.2 2).2)
      = some (some "2: abcde starts from \x27ab\x27")) := by
  have h1 : (Iter.Filter (seqOps String)
      (fun v => "ab".data.isPrefixOf v.data)
      (New (FromStrings ["abc", "bbc", "abccd", "abcdd"]))).2
      = ⟨⟨⟨-1, ["abc", "abccd", "abcdd"], 3⟩, 0⟩⟩ := by
    rw [IterFilter_eq, filter_eq]
    dsimp only [New, newIter]
    rw [filterLoop_seq (fun v => "ab".data.isPrefixOf v.data)
      ["abc", "bbc", "abccd", "abcdd"]
      (FromStrings ["abc", "bbc", "abccd", "abcdd"]) ((seqOps String).new)
      (by decide) (by decide)]
    decide
  have h2 : (Iter.Or (seqOps String) (fun v => v != "abcdd") "abcde"
      (⟨⟨⟨-1, ["abc", "abccd", "abcdd"], 3⟩, 0⟩⟩ : Iter (Seq String))).2
      = ⟨⟨⟨-1, ["abc", "abccd", "abcde"], 3⟩, 0⟩⟩ := by
    rw [IterOr_eq, or_eq]
    dsimp only [newIter]
    rw [orLoop_seq (fun v => v != "abcdd") "abcde"
      ["abc", "abccd", "abcdd"] ⟨-1, ["abc", "abccd", "abcdd"], 3⟩
      ((seqOps String).new) (by decide) (by decide)]
    decide
  have h3 : (Iter.Map (seqOps String)
      (fun v => v ++ " starts from \x27ab\x27")
      (⟨⟨⟨-1, ["abc", "abccd", "abcde"], 3⟩, 0⟩⟩ : Iter (Seq String))).2
      = ⟨⟨⟨-1, ["abc starts from \x27ab\x27",
              "abccd starts from \x27ab\x27",
              "abcde starts from \x27ab\x27"], 3⟩, 0⟩⟩ := by
    rw [IterMap_eq, apply_eq]
    dsimp only [newIter]
    rw [applyLoop_seq (fun v => v ++ " starts from \x27ab\x27")
      ["abc", "abccd", "abcde"] ⟨-1, ["abc", "abccd", "abcde"], 3⟩
      ((seqOps String).new) (by decide) (by decide)]
    decide
  have h4 : Iter.Every (seqOps String) (fun i v => toString i ++ ": " ++ v)
      (⟨⟨⟨-1, ["abc starts from \x27ab\x27",
              "abccd starts from \x27ab\x27",
              "abcde starts from \x27ab\x27"], 3⟩, 0⟩⟩ : Iter (Seq String))
      = some (⟨⟨⟨3, ["abc starts from \x27ab\x27",
              "abccd starts from \x27ab\x27",
              "abcde starts from \x27ab\x27"], 3⟩, 0⟩⟩,
          ⟨⟨⟨-1, ["0: abc starts from \x27ab\x27",
              "1: abccd starts from \x27ab\x27",
              "2: abcde starts from \x27ab\x27"], 3⟩, 0⟩⟩) := by
    rw [show Iter.Every (seqOps String)
        (fun i v => toString i ++ ": " ++ v)
        (⟨⟨⟨-1, ["abc starts from \x27ab\x27",
              "abccd starts from \x27ab\x27",
              "abcde starts from \x27ab\x27"], 3⟩, 0⟩⟩ : Iter (Seq String))
      = (every (seqOps String) (fun i v => toString i ++ ": " ++ v)
          ⟨⟨-1, ["abc starts from \x27ab\x27",
              "abccd starts from \x27ab\x27",
              "abcde starts from \x27ab\x27"], 3⟩, 0⟩).map
          (fun p => (⟨p.1⟩, ⟨p.2⟩)) from rfl]
    rw [every_seq_eq]
    rw [everyLoop_seq (fun i v => toString i ++ ": " ++ v)
      ["abc starts from \x27ab\x27", "abccd starts from \x27ab\x27",
       "abcde starts from \x27ab\x27"] 0
      ⟨-1, ["abc starts from \x27ab\x27",
        "abccd starts from \x27ab\x27",
        "abcde starts from \x27ab\x27"], 3⟩ (Seq.New String)
      (by decide) (by decide) (by decide)]
    decide
  refine ⟨?_, ?_⟩
  · rw [h1, h2, h3, h4]
    decide
  · rw [h1, h2, h3, h4]
    decide

end Goiter
